import Mathlib

/-!
# Benchy-Suite: the parallel benchmarking harness

A shallow embedding of the aggregation, partitioning and work-unit code of
`cpu_bench_2.cpp`, `multithread_cpu.cpp`, `mem_bench.cpp` and `mem_bench_2.cpp`.

Conventions of the embedding.

* `double` values (elapsed seconds, rates, ratios) are rationals `ℚ`. The functions
  `aggregate`, `run_benchmark` and `benchmark` take each `double` division as the
  exact quotient; `aggregate_binary64`, `run_benchmark_binary64` and
  `benchmark_binary64` are the same functions with every conversion and division
  rounded to the nearest binary64 value, and are used where rounding decides.
* `uint64_t` / `size_t` values are natural numbers, reduced modulo `2 ^ 64`
  wherever the C++ operation can wrap.
* The clock and the timed loops are external: a work unit is represented by the
  elapsed time it stores into its `thread_time` argument.
* An operation that has no defined result in C++ (integer division by zero,
  dereferencing the end iterator of an empty vector) yields `none`.
* Memory is a flat byte-addressed space: a store lands at its address whether or
  not that address belongs to the region or share the caller meant.
-/

namespace BenchySuite

/-! ## Machine integers -/

/-- Number of values of `uint64_t` and of `size_t`. -/
def U64 : Nat := 2 ^ 64

/-- Number of values of `unsigned`, the type of `NUM_THREADS`. -/
def U32 : Nat := 2 ^ 32

/-! ## `cpu_bench_2.cpp` and `multithread_cpu.cpp`: the aggregation round -/

/-- The constant `OP_COUNT` (`1000000000` in `cpu_bench_2.cpp`, `1E9` in
`multithread_cpu.cpp`). -/
def OP_COUNT : Nat := 1000000000

/-- The scan of `std::max_element`: `largest` is replaced by a later element only
when `largest < element`, so the first of several equal maxima is kept. -/
def max_element_go : ℚ → List ℚ → ℚ
  | largest, [] => largest
  | largest, x :: xs => if largest < x then max_element_go x xs else max_element_go largest xs

/-- The expression `*std::max_element(v.begin(), v.end())`. On an empty vector the
iterator returned is `v.end()`, which cannot be dereferenced. -/
def max_element : List ℚ → Option ℚ
  | [] => none
  | x :: xs => some (max_element_go x xs)

/-- The three figures a round computes: `single_thread_ops`, `multi_thread_ops`
and their quotient. -/
structure AggregateResult where
  single_worker_rate : ℚ
  multi_worker_rate : ℚ
  scaling_ratio : ℚ
  deriving DecidableEq, Repr

/-- The loop `for (unsigned i = 0; i < NUM_THREADS; ++i)` whose thread `i` runs the
work unit with `thread_times[i]` as its `thread_time` reference; `func i` is the
elapsed time the work unit of thread `i` stores. -/
def launch_all (NUM_THREADS : Nat) (func : Nat → ℚ) (thread_times : List ℚ) : List ℚ :=
  (List.range NUM_THREADS).foldl (fun tt i => tt.set i (func i)) thread_times

/-- The reduction shared by `run_benchmark` and the `benchmark` lambda, from
`max_element` on: `(OP_COUNT * NUM_THREADS) / max_time` with the product taken in
`uint64_t`, then the ratio. -/
def aggregate (NUM_THREADS : Nat) (single_thread_ops : ℚ) (thread_times : List ℚ) :
    Option AggregateResult :=
  match max_element thread_times with
  | none => none
  | some max_time =>
    let multi_thread_ops : ℚ := (((OP_COUNT * NUM_THREADS) % U64 : Nat) : ℚ) / max_time
    some ⟨single_thread_ops, multi_thread_ops, multi_thread_ops / single_thread_ops⟩

/-- The function `run_benchmark` of `cpu_bench_2.cpp`. `single_thread_time` is what
the baseline call of `func` stores; `thread_times` is a fresh vector of
`NUM_THREADS` zeros. -/
def run_benchmark (NUM_THREADS : Nat) (single_thread_time : ℚ) (func : Nat → ℚ) :
    Option AggregateResult :=
  let single_thread_ops : ℚ := (OP_COUNT : ℚ) / single_thread_time
  let thread_times := launch_all NUM_THREADS func (List.replicate NUM_THREADS 0)
  aggregate NUM_THREADS single_thread_ops thread_times

/-- The two vectors of `main` in `multithread_cpu.cpp` that the `benchmark` lambda
captures by reference. `threads` lists the indices of the thread objects held. -/
structure BenchState where
  threads : List Nat
  thread_times : List ℚ
  deriving DecidableEq, Repr

/-- The state `main` of `multithread_cpu.cpp` builds before the first round:
`threads` empty, `thread_times(NUM_THREADS)`. -/
def BenchState.init (NUM_THREADS : Nat) : BenchState :=
  ⟨[], List.replicate NUM_THREADS 0⟩

/-- The call `threads.clear()`. -/
def clear (_threads : List Nat) : List Nat := []

/-- The `benchmark` lambda of `multithread_cpu.cpp`: one round on the shared
vectors. The threads are appended with `emplace_back`, joined, and the vector is
cleared before the maximum is taken. -/
def benchmark (NUM_THREADS : Nat) (single_thread_time : ℚ) (func : Nat → ℚ)
    (s : BenchState) : Option (AggregateResult × BenchState) :=
  let single_thread_ops_per_sec : ℚ := (OP_COUNT : ℚ) / single_thread_time
  let launched : List Nat := s.threads ++ List.range NUM_THREADS
  let thread_times := launch_all NUM_THREADS func s.thread_times
  let cleared : List Nat := clear launched
  match aggregate NUM_THREADS single_thread_ops_per_sec thread_times with
  | none => none
  | some r => some (r, ⟨cleared, thread_times⟩)

/-! ## `cpu_bench_2.cpp`: the arithmetic work units -/

/-- The element types `main` instantiates the work units with. -/
inductive ElemType where
  | double
  | float
  | int64
  | int32
  | int8
  deriving DecidableEq, Repr

/-- The value of `sizeof(T)`. -/
def ElemType.sizeof : ElemType → Nat
  | .double => 8
  | .float => 4
  | .int64 => 8
  | .int32 => 4
  | .int8 => 1

/-- The value of `std::is_floating_point<T>::value`. -/
def ElemType.is_floating_point : ElemType → Bool
  | .double => true
  | .float => true
  | _ => false

/-- The add instruction in the body of a work-unit loop. -/
inductive AddInstr where
  /-- The statement `counter += static_cast<T>(1)` on one scalar of type `T`. -/
  | scalar_add (T : ElemType)
  /-- The intrinsic `_mm_add_ps`: four packed `float` lanes of a 128-bit register. -/
  | mm_add_ps
  /-- The intrinsic `_mm_add_epi32`: four packed 32-bit integer lanes of a 128-bit register. -/
  | mm_add_epi32
  /-- The intrinsic `_mm256_add_pd`: four packed `double` lanes of a 256-bit register. -/
  | mm256_add_pd
  deriving DecidableEq, Repr

/-- Number of element lanes one execution of the instruction adds. -/
def AddInstr.lanes : AddInstr → Nat
  | .scalar_add _ => 1
  | .mm_add_ps => 4
  | .mm_add_epi32 => 4
  | .mm256_add_pd => 4

/-- Element type of the lanes the instruction adds. -/
def AddInstr.lane_type : AddInstr → ElemType
  | .scalar_add T => T
  | .mm_add_ps => .float
  | .mm_add_epi32 => .int32
  | .mm256_add_pd => .double

/-- The timed loop of a work unit: its trip count and the add in its body. -/
structure WorkLoop where
  iterations : Nat
  instr : AddInstr
  deriving DecidableEq, Repr

/-- The value of `sizeof(__m128)`. -/
def sizeof_m128 : Nat := 16

/-- The value of `sizeof(__m256d)`. -/
def sizeof_m256d : Nat := 32

/-- The loop of `scalar_operations<T>`: `for (i = 0; i < ops; ++i) counter += 1`. -/
def scalar_operations (T : ElemType) (ops : Nat) : WorkLoop :=
  ⟨ops, .scalar_add T⟩

/-- The loop of `sse_operations<T>`: the branch is chosen by `is_floating_point`,
the trip count is `ops / elements_per_op`. -/
def sse_operations (T : ElemType) (ops : Nat) : WorkLoop :=
  let elements_per_op := sizeof_m128 / T.sizeof
  if T.is_floating_point then ⟨ops / elements_per_op, .mm_add_ps⟩
  else ⟨ops / elements_per_op, .mm_add_epi32⟩

/-- The loop of `avx_operations<T>`; the integer branch is the SSE fallback with
trip count `ops / (elements_per_op / 2)`. -/
def avx_operations (T : ElemType) (ops : Nat) : WorkLoop :=
  let elements_per_op := sizeof_m256d / T.sizeof
  if T.is_floating_point then ⟨ops / elements_per_op, .mm256_add_pd⟩
  else ⟨ops / (elements_per_op / 2), .mm_add_epi32⟩

/-- Number of element additions the loop executes: every iteration issues the
instruction once, which adds `lanes` elements. -/
def WorkLoop.lane_additions (l : WorkLoop) : Nat :=
  (fun done => done + l.instr.lanes)^[l.iterations] 0

/-! ## `mem_bench.cpp` and `mem_bench_2.cpp` -/

/-- Byte-addressed memory: address to byte value. -/
abbrev Memory := Nat → Nat

/-- The 64-bit pattern `0x0101010101010101LL`. -/
def value : Nat := 0x0101010101010101

/-- Byte `k` of a register filled with copies of the 64-bit `value` (the scalar
`long long`, `_mm_set1_epi64x`, `_mm256_set1_epi64x`), in little-endian order. -/
def pattern_byte (k : Nat) : Nat := (value / 256 ^ (k % 8)) % 256

/-- One store of a `w`-byte register of the pattern at address `addr`. -/
def store (w : Nat) (mem : Memory) (addr : Nat) : Memory :=
  fun a => if addr ≤ a ∧ a < addr + w then pattern_byte (a - addr) else mem a

/-- The loop `for (size_t i = 0; i < chunk_size; i += w) store(memory + i)` of the
write units, `w` being `sizeof(long long)`, `sizeof(__m128i)` or
`sizeof(__m256i)`. The index is a `size_t`, so the increment wraps; `none` is
returned when the fuel is used up before the loop exits. -/
def write_loop (w memory chunk_size : Nat) : Nat → Nat → Memory → Option Memory
  | 0, _, _ => none
  | fuel + 1, i, mem =>
    if i < chunk_size then
      write_loop w memory chunk_size fuel ((i + w) % U64) (store w mem (memory + i))
    else some mem

/-- The function `write_memory_chunk` of `mem_bench.cpp`, which is
`write_memory_chunk_scalar` of `mem_bench_2.cpp`: 8-byte stores. -/
def write_memory_chunk_scalar (fuel memory chunk_size : Nat) (mem : Memory) : Option Memory :=
  write_loop 8 memory chunk_size fuel 0 mem

/-- The function `write_memory_chunk_sse`: 16-byte stores. -/
def write_memory_chunk_sse (fuel memory chunk_size : Nat) (mem : Memory) : Option Memory :=
  write_loop 16 memory chunk_size fuel 0 mem

/-- The function `write_memory_chunk_avx`: 32-byte stores. -/
def write_memory_chunk_avx (fuel memory chunk_size : Nat) (mem : Memory) : Option Memory :=
  write_loop 32 memory chunk_size fuel 0 mem

/-- Conversion of an `int` to `size_t`. -/
def to_size_t (x : Int) : Nat := (x % (U64 : Int)).toNat

/-- The `size_t` division `a / b`; it has no result when `b` is `0`. -/
def size_t_div (a b : Nat) : Option Nat :=
  if b = 0 then none else some (a / b)

/-- The arguments one worker thread is created with: the pointer, as an offset from
`memory`, and `chunk_size`. -/
structure Share where
  offset : Nat
  length : Nat
  deriving DecidableEq, Repr

/-- Address `a` (relative to `memory`) lies in the share. -/
def Share.contains (s : Share) (a : Nat) : Prop :=
  s.offset ≤ a ∧ a < s.offset + s.length

instance (s : Share) (a : Nat) : Decidable (s.contains a) := by
  unfold Share.contains; infer_instance

/-- What one call of a bandwidth measurement does: the arguments of the threads it
creates, in creation order, and the value it returns. -/
structure Round where
  shares : List Share
  bandwidth : ℚ
  deriving DecidableEq, Repr

/-- The function `measure_write_bandwidth` (both files). `start` and `end_` are the
two samples of `high_resolution_clock::now()` in nanoseconds, taken before the
first thread is created and after the last join. The division
`size / thread_count` is a `size_t` division. -/
def measure_write_bandwidth (size : Nat) (thread_count : Int) (start end_ : Int) :
    Option Round :=
  match size_t_div size (to_size_t thread_count) with
  | none => none
  | some chunk_size =>
    let shares := (List.range thread_count.toNat).map
      (fun i => (⟨(i * chunk_size) % U64, chunk_size⟩ : Share))
    let duration : Int := end_ - start
    let seconds : ℚ := (duration : ℚ) * (1 / 1000000000)
    let bandwidth : ℚ := ((size : ℚ) / (1024 * 1024 * 1024)) / seconds
    some ⟨shares, bandwidth⟩

/-- The function `measure_read_bandwidth` (both files): the same partition and the
same return expression; every thread also receives `&sum`. -/
def measure_read_bandwidth (size : Nat) (thread_count : Int) (start end_ : Int) :
    Option Round :=
  match size_t_div size (to_size_t thread_count) with
  | none => none
  | some chunk_size =>
    let shares := (List.range thread_count.toNat).map
      (fun i => (⟨(i * chunk_size) % U64, chunk_size⟩ : Share))
    let duration : Int := end_ - start
    let seconds : ℚ := (duration : ℚ) * (1 / 1000000000)
    let bandwidth : ℚ := ((size : ℚ) / (1024 * 1024 * 1024)) / seconds
    some ⟨shares, bandwidth⟩

/-- The clock readings of one bandwidth measurement: the two samples the function
takes and, for every worker, the clock at entry to and exit from its work unit. -/
structure MemExecution where
  start : Int
  windows : List (Int × Int)
  end_ : Int
  deriving DecidableEq, Repr

/-- The worker windows lie between the two samples of the measuring function: a
thread is created after `start` is taken and joined before `end_` is taken. -/
def MemExecution.ordered (e : MemExecution) : Prop :=
  ∀ w ∈ e.windows, e.start ≤ w.1 ∧ w.1 ≤ w.2 ∧ w.2 ≤ e.end_

/-- Elapsed nanoseconds of every worker of the execution. -/
def MemExecution.worker_elapsed (e : MemExecution) : List ℚ :=
  e.windows.map (fun w => ((w.2 - w.1 : Int) : ℚ))

/-- The assignment `thread_time = duration<double>(end - start).count()` that ends
every arithmetic work unit, `start` and `end_` being its own two clock samples in
seconds. -/
def thread_time (start end_ : ℚ) : ℚ := end_ - start

/-- The shares `floor(S/T)` bytes long that start at the multiples of `floor(S/T)`. -/
def even_shares (S T : Nat) : List Share :=
  (List.range T).map (fun i => (⟨i * (S / T), S / T⟩ : Share))

/-- Number of trips of `for (i = i0; i < chunk_size; i += w)` when the index does
not wrap: the remaining length divided by `w`, rounded up. -/
def trips (w chunk_size i0 : Nat) : Nat := (chunk_size - i0 + w - 1) / w

/-- The memory the specification asks of a write unit: the byte `0x01` (the fixed
pattern `0x0101010101010101` repeated) on the `chunk_size` bytes from `memory` on,
every other byte as before. -/
def pattern_fill (memory chunk_size : Nat) (mem : Memory) : Memory :=
  fun a => if memory ≤ a ∧ a < memory + chunk_size then 0x01 else mem a

/-! ## Binary64 arithmetic of the aggregation round -/

/-- Nearest integer to `x`, a tie going to the even neighbour. -/
def round_half_even (x : ℚ) : ℤ :=
  let f := ⌊x⌋
  if x - f < 1 / 2 then f
  else if 1 / 2 < x - f then f + 1
  else if f % 2 = 0 then f else f + 1

/-- The binary64 (`double`) value nearest to `x`, ties to even: `x` is rounded to a
multiple of `2 ^ (e - 52)`, `e` being the binary exponent of `x`, which leaves a
significand of 53 bits. The exponent is not bounded: overflow to infinity and
subnormal values are outside the model. -/
def round_binary64 (x : ℚ) : ℚ :=
  if x = 0 then 0
  else
    let e := Int.log 2 |x|
    let quantum : ℚ := 2 ^ (e - 52)
    (if x < 0 then -1 else 1) * (round_half_even (|x| / quantum) : ℚ) * quantum

/-- The `double` division `a / b`: the quotient rounded to binary64. -/
def fdiv (a b : ℚ) : ℚ := round_binary64 (a / b)

/-- Conversion of a `uint64_t` to `double`. -/
def to_double (n : Nat) : ℚ := round_binary64 (n : ℚ)

/-- The reduction of `run_benchmark` and of the `benchmark` lambda from
`max_element` on, with the `uint64_t` product converted to `double` and both
divisions rounded. -/
def aggregate_binary64 (NUM_THREADS : Nat) (single_thread_ops : ℚ) (thread_times : List ℚ) :
    Option AggregateResult :=
  match max_element thread_times with
  | none => none
  | some max_time =>
    let multi_thread_ops : ℚ := fdiv (to_double ((OP_COUNT * NUM_THREADS) % U64)) max_time
    some ⟨single_thread_ops, multi_thread_ops, fdiv multi_thread_ops single_thread_ops⟩

/-- The function `run_benchmark` of `cpu_bench_2.cpp` in binary64 arithmetic. -/
def run_benchmark_binary64 (NUM_THREADS : Nat) (single_thread_time : ℚ) (func : Nat → ℚ) :
    Option AggregateResult :=
  let single_thread_ops : ℚ := fdiv (to_double OP_COUNT) single_thread_time
  let thread_times := launch_all NUM_THREADS func (List.replicate NUM_THREADS 0)
  aggregate_binary64 NUM_THREADS single_thread_ops thread_times

/-- The `benchmark` lambda of `multithread_cpu.cpp` in binary64 arithmetic. -/
def benchmark_binary64 (NUM_THREADS : Nat) (single_thread_time : ℚ) (func : Nat → ℚ)
    (s : BenchState) : Option (AggregateResult × BenchState) :=
  let single_thread_ops_per_sec : ℚ := fdiv (to_double OP_COUNT) single_thread_time
  let launched : List Nat := s.threads ++ List.range NUM_THREADS
  let thread_times := launch_all NUM_THREADS func s.thread_times
  let cleared : List Nat := clear launched
  match aggregate_binary64 NUM_THREADS single_thread_ops_per_sec thread_times with
  | none => none
  | some r => some (r, ⟨cleared, thread_times⟩)

/-! ## Endings of a call -/

/-- Why a call does not return a value. -/
inductive Failure where
  /-- An error the function itself reports (a `throw`, an error return, a call of
  `exit`). No statement of the benchmark sources produces it. -/
  | configuration_error
  /-- An operation C++ gives no behaviour. In the embedding these are the `size_t`
  division by zero of `size_t_div` and the dereference of `end()` in
  `max_element`, the only places that yield `none`. -/
  | undefined_operation
  deriving DecidableEq, Repr

/-- The ending of a call, read off its embedded result: a value returned, or the
undefined operation that `none` stands for. -/
def ending {α : Type} : Option α → Except Failure α
  | some a => .ok a
  | none => .error .undefined_operation

/-- The thread counts `main` of `mem_bench.cpp` and of `mem_bench_2.cpp` passes to
the measuring functions: `for (int thread_count = 1; thread_count <= max_threads;
thread_count++)`, `max_threads` being the value of `hardware_concurrency()`. -/
def thread_count_sweep (max_threads : Nat) : List Int :=
  (List.range max_threads).map (fun (k : Nat) => (k : Int) + 1)

/-! ### Lemmas on the aggregation round -/

theorem max_element_go_eq_foldl (a : ℚ) (l : List ℚ) :
    max_element_go a l = l.foldl max a := by
  induction l generalizing a with
  | nil => rfl
  | cons x xs ih =>
    simp only [max_element_go, List.foldl_cons]
    split_ifs with h
    · rw [ih, max_eq_right (le_of_lt h)]
    · rw [ih, max_eq_left (not_lt.mp h)]

theorem max_element_go_ge (a : ℚ) (l : List ℚ) :
    a ≤ max_element_go a l ∧ ∀ x ∈ l, x ≤ max_element_go a l := by
  induction l generalizing a with
  | nil => simp [max_element_go]
  | cons x xs ih =>
    simp only [max_element_go]
    split_ifs with h
    · obtain ⟨h1, h2⟩ := ih x
      refine ⟨le_trans (le_of_lt h) h1, ?_⟩
      intro y hy
      rcases List.mem_cons.mp hy with rfl | hy
      · exact h1
      · exact h2 y hy
    · obtain ⟨h1, h2⟩ := ih a
      refine ⟨h1, ?_⟩
      intro y hy
      rcases List.mem_cons.mp hy with rfl | hy
      · exact le_trans (not_lt.mp h) h1
      · exact h2 y hy

theorem max_element_go_mem (a : ℚ) (l : List ℚ) :
    max_element_go a l = a ∨ max_element_go a l ∈ l := by
  induction l generalizing a with
  | nil => simp [max_element_go]
  | cons x xs ih =>
    simp only [max_element_go]
    split_ifs with h
    · rcases ih x with h1 | h1
      · right; rw [h1]; exact List.mem_cons_self _ _
      · right; exact List.mem_cons_of_mem _ h1
    · rcases ih a with h1 | h1
      · left; exact h1
      · right; exact List.mem_cons_of_mem _ h1

/-- On a non-empty vector `max_element` returns a member that bounds every member. -/
theorem max_element_spec (l : List ℚ) (hl : l ≠ []) :
    ∃ m, max_element l = some m ∧ m ∈ l ∧ ∀ x ∈ l, x ≤ m := by
  cases l with
  | nil => exact absurd rfl hl
  | cons a xs =>
    refine ⟨max_element_go a xs, rfl, ?_, ?_⟩
    · rcases max_element_go_mem a xs with h | h
      · rw [h]; exact List.mem_cons_self _ _
      · exact List.mem_cons_of_mem _ h
    · intro x hx
      rcases List.mem_cons.mp hx with rfl | hx
      · exact (max_element_go_ge _ xs).1
      · exact (max_element_go_ge a xs).2 x hx

theorem launch_all_length (n : Nat) (func : Nat → ℚ) (l : List ℚ) :
    (launch_all n func l).length = l.length := by
  unfold launch_all
  induction n with
  | zero => simp
  | succ k ih => rw [List.range_succ, List.foldl_append]; simp [ih]

theorem launch_all_getElem? (n : Nat) (func : Nat → ℚ) (l : List ℚ) (hn : n ≤ l.length)
    (j : Nat) :
    (launch_all n func l)[j]? = if j < n then some (func j) else l[j]? := by
  induction n with
  | zero => simp [launch_all]
  | succ k ih =>
    have hk : k ≤ l.length := Nat.le_of_succ_le hn
    have hlen := launch_all_length k func l
    have hstep : launch_all (k + 1) func l = (launch_all k func l).set k (func k) := by
      unfold launch_all
      rw [List.range_succ, List.foldl_append]
      rfl
    rw [hstep, List.getElem?_set]
    by_cases hkj : k = j
    · subst hkj
      have : k < (launch_all k func l).length := by rw [hlen]; exact hn
      simp [this]
    · rw [if_neg hkj, ih hk]
      by_cases hj : j < k
      · have : j < k + 1 := Nat.lt_succ_of_lt hj
        simp [hj, this]
      · have : ¬ j < k + 1 := by omega
        simp [hj, this]

/-- After the launch loop the vector holds exactly the times of this round. -/
theorem launch_all_eq (n : Nat) (func : Nat → ℚ) (l : List ℚ) (hn : l.length = n) :
    launch_all n func l = (List.range n).map func := by
  apply List.ext_getElem?
  intro j
  rw [launch_all_getElem? n func l (le_of_eq hn.symm) j]
  by_cases hj : j < n
  · simp [hj]
  · have h1 : l[j]? = none := by
      apply List.getElem?_eq_none
      omega
    have h2 : ((List.range n).map func)[j]? = none := by
      apply List.getElem?_eq_none
      simp
      omega
    rw [if_neg hj, h1, h2]

theorem op_count_mul_lt (T : Nat) (hT : T < U32) : OP_COUNT * T < U64 := by
  unfold OP_COUNT U64
  unfold U32 at hT
  omega

theorem round_max (T : Nat) (hT : 1 ≤ T) (t : Nat → ℚ) :
    ∃ m, max_element ((List.range T).map t) = some m ∧ m ∈ (List.range T).map t ∧
      ∀ i < T, t i ≤ m := by
  have hne : (List.range T).map t ≠ [] := by
    intro h
    have := congrArg List.length h
    simp at this
    omega
  obtain ⟨m, hm, hmem, hub⟩ := max_element_spec _ hne
  refine ⟨m, hm, hmem, ?_⟩
  intro i hi
  apply hub
  exact List.mem_map.mpr ⟨i, List.mem_range.mpr hi, rfl⟩

theorem aggregate_eq (T : Nat) (hT32 : T < U32) (sops : ℚ) (l : List ℚ) (m : ℚ)
    (hm : max_element l = some m) :
    aggregate T sops l =
      some ⟨sops, (OP_COUNT * T : ℚ) / m, ((OP_COUNT * T : ℚ) / m) / sops⟩ := by
  unfold aggregate
  rw [hm]
  simp only [Nat.mod_eq_of_lt (op_count_mul_lt T hT32)]
  push_cast
  rfl

theorem run_benchmark_eq (T : Nat) (hT32 : T < U32) (st : ℚ) (t : Nat → ℚ) (m : ℚ)
    (hm : max_element ((List.range T).map t) = some m) :
    run_benchmark T st t =
      some ⟨OP_COUNT / st, (OP_COUNT * T : ℚ) / m, ((OP_COUNT * T : ℚ) / m) / (OP_COUNT / st)⟩ := by
  unfold run_benchmark
  simp only []
  rw [launch_all_eq T t _ (List.length_replicate _ _)]
  exact aggregate_eq T hT32 _ _ m hm

theorem benchmark_eq (T : Nat) (hT32 : T < U32) (st : ℚ) (t : Nat → ℚ) (m : ℚ)
    (hm : max_element ((List.range T).map t) = some m)
    (s : BenchState) (hs : s.thread_times.length = T) :
    benchmark T st t s =
      some (⟨OP_COUNT / st, (OP_COUNT * T : ℚ) / m,
              ((OP_COUNT * T : ℚ) / m) / (OP_COUNT / st)⟩,
            ⟨[], (List.range T).map t⟩) := by
  unfold benchmark
  simp only []
  rw [launch_all_eq T t _ hs, aggregate_eq T hT32 _ _ m hm]
  rfl

/-- With every worker reporting the same time `t`, the maximum is `t`. -/
theorem max_element_const (T : Nat) (hT : 1 ≤ T) (t : ℚ) :
    max_element ((List.range T).map (fun _ => t)) = some t := by
  obtain ⟨m, hm, hmem, _⟩ := round_max T hT (fun _ => t)
  obtain ⟨_, _, h⟩ := List.mem_map.mp hmem
  rw [hm, ← h]

theorem ideal_ratio (T : Nat) (t : ℚ) (ht : 0 < t) :
    ((OP_COUNT * T : ℚ) / t) / ((OP_COUNT : ℚ) / t) = T := by
  have h1 : t ≠ 0 := ne_of_gt ht
  have h2 : (OP_COUNT : ℚ) ≠ 0 := by unfold OP_COUNT; norm_num
  field_simp

/-! ### Lemmas on binary64 rounding -/

theorem int_log_unique (x : ℚ) (e : ℤ) (hx : 0 < x) (h1 : (2 : ℚ) ^ e ≤ x)
    (h2 : x < (2 : ℚ) ^ (e + 1)) : Int.log 2 x = e := by
  have a : e ≤ Int.log 2 x :=
    (Int.zpow_le_iff_le_log (by norm_num) hx).mp (by exact_mod_cast h1)
  have b : Int.log 2 x < e + 1 :=
    (Int.lt_zpow_iff_log_lt (by norm_num) hx).mp (by exact_mod_cast h2)
  omega

theorem round_half_even_intCast (n : ℤ) : round_half_even (n : ℚ) = n := by
  unfold round_half_even
  simp

theorem round_half_even_down (x : ℚ) (f : ℤ) (h1 : (f : ℚ) ≤ x) (h2 : x < f + 1 / 2) :
    round_half_even x = f := by
  have hf : ⌊x⌋ = f := by
    rw [Int.floor_eq_iff]
    constructor
    · exact h1
    · linarith
  unfold round_half_even
  simp only [hf]
  rw [if_pos (by linarith)]

theorem round_half_even_up (x : ℚ) (f : ℤ) (h1 : (f : ℚ) + 1 / 2 < x) (h2 : x < f + 1) :
    round_half_even x = f + 1 := by
  have hf : ⌊x⌋ = f := by
    rw [Int.floor_eq_iff]
    constructor
    · linarith
    · exact h2
  unfold round_half_even
  simp only [hf]
  rw [if_neg (by linarith), if_pos (by linarith)]

/-- Rounding of a positive `x` whose binary exponent is `e`. -/
theorem round_binary64_eq (x : ℚ) (e : ℤ) (hx : 0 < x) (h1 : (2 : ℚ) ^ e ≤ x)
    (h2 : x < (2 : ℚ) ^ (e + 1)) :
    round_binary64 x = (round_half_even (x / 2 ^ (e - 52)) : ℚ) * 2 ^ (e - 52) := by
  unfold round_binary64
  rw [if_neg (ne_of_gt hx), abs_of_pos hx, int_log_unique x e hx h1 h2]
  simp only [if_neg (not_lt.mpr (le_of_lt hx)), one_mul]

/-- A value with a significand below `2 ^ 53` is a binary64 value: rounding leaves
it as it is. -/
theorem round_binary64_scaled (m : ℕ) (k : ℤ) (hm : 0 < m) (hm53 : m < 2 ^ 53) :
    round_binary64 ((m : ℚ) * 2 ^ k) = (m : ℚ) * 2 ^ k := by
  have hL1 : 2 ^ Nat.log 2 m ≤ m := Nat.pow_log_le_self 2 (Nat.pos_iff_ne_zero.mp hm)
  have hL2 : m < 2 ^ (Nat.log 2 m + 1) := Nat.lt_pow_succ_log_self (by decide) m
  have hL : Nat.log 2 m ≤ 52 := by
    have : Nat.log 2 m < 53 := Nat.log_lt_of_lt_pow (Nat.pos_iff_ne_zero.mp hm) hm53
    omega
  generalize Nat.log 2 m = L at hL1 hL2 hL
  have h2k : (0 : ℚ) < 2 ^ k := zpow_pos (by norm_num) k
  have hx : (0 : ℚ) < (m : ℚ) * 2 ^ k := mul_pos (by exact_mod_cast hm) h2k
  have h1 : (2 : ℚ) ^ ((L : ℤ) + k) ≤ (m : ℚ) * 2 ^ k := by
    rw [zpow_add₀ (two_ne_zero), zpow_natCast]
    apply mul_le_mul_of_nonneg_right _ (le_of_lt h2k)
    exact_mod_cast hL1
  have h2 : (m : ℚ) * 2 ^ k < (2 : ℚ) ^ ((L : ℤ) + k + 1) := by
    have : ((L : ℤ) + k + 1) = ((L + 1 : ℕ) : ℤ) + k := by push_cast; ring
    rw [this, zpow_add₀ (two_ne_zero), zpow_natCast]
    apply mul_lt_mul_of_pos_right _ h2k
    exact_mod_cast hL2
  rw [round_binary64_eq _ _ hx h1 h2]
  have hq : (m : ℚ) * 2 ^ k / 2 ^ ((L : ℤ) + k - 52)
      = (((m * 2 ^ (52 - L) : ℕ) : ℤ) : ℚ) := by
    rw [div_eq_iff (zpow_ne_zero _ two_ne_zero)]
    push_cast
    rw [mul_assoc, ← zpow_natCast, ← zpow_add₀ (two_ne_zero)]
    congr 2
    rw [Nat.cast_sub hL]
    push_cast
    ring
  rw [hq, round_half_even_intCast]
  push_cast
  rw [mul_assoc, ← zpow_natCast, ← zpow_add₀ (two_ne_zero)]
  congr 2
  rw [Nat.cast_sub hL]
  push_cast
  ring

theorem round_binary64_natCast (n : ℕ) (hn : n < 2 ^ 53) : round_binary64 (n : ℚ) = n := by
  rcases Nat.eq_zero_or_pos n with rfl | hpos
  · simp [round_binary64]
  · have := round_binary64_scaled n 0 hpos hn
    simpa using this

theorem to_double_op_count : to_double OP_COUNT = (OP_COUNT : ℚ) :=
  round_binary64_natCast OP_COUNT (by unfold OP_COUNT; norm_num)

/-- The product `OP_COUNT * T` of an `unsigned` `T` converts to `double` without
rounding: it is `1953125 * T`, below `2 ^ 53`, times `2 ^ 9`. -/
theorem to_double_op_count_mul (T : Nat) (hT32 : T < U32) :
    to_double (OP_COUNT * T) = (OP_COUNT : ℚ) * T := by
  unfold to_double
  rcases Nat.eq_zero_or_pos T with rfl | hpos
  · simp [round_binary64]
  · have h53 : 1953125 * T < 2 ^ 53 := by
      unfold U32 at hT32
      omega
    have h := round_binary64_scaled (1953125 * T) 9 (by omega) h53
    have hc : ((OP_COUNT * T : ℕ) : ℚ) = ((1953125 * T : ℕ) : ℚ) * 2 ^ (9 : ℤ) := by
      unfold OP_COUNT
      push_cast
      norm_num
      ring
    rw [hc, h]
    unfold OP_COUNT
    push_cast
    norm_num
    ring

theorem aggregate_binary64_eq (T : Nat) (hT32 : T < U32) (sops : ℚ) (l : List ℚ) (m : ℚ)
    (hm : max_element l = some m) :
    aggregate_binary64 T sops l =
      some ⟨sops, fdiv ((OP_COUNT : ℚ) * T) m, fdiv (fdiv ((OP_COUNT : ℚ) * T) m) sops⟩ := by
  unfold aggregate_binary64
  rw [hm]
  simp only [Nat.mod_eq_of_lt (op_count_mul_lt T hT32), to_double_op_count_mul T hT32]

theorem run_benchmark_binary64_eq (T : Nat) (hT32 : T < U32) (st : ℚ) (t : Nat → ℚ) (m : ℚ)
    (hm : max_element ((List.range T).map t) = some m) :
    run_benchmark_binary64 T st t =
      some ⟨fdiv OP_COUNT st, fdiv ((OP_COUNT : ℚ) * T) m,
        fdiv (fdiv ((OP_COUNT : ℚ) * T) m) (fdiv OP_COUNT st)⟩ := by
  unfold run_benchmark_binary64
  simp only []
  rw [launch_all_eq T t _ (List.length_replicate _ _), to_double_op_count]
  exact aggregate_binary64_eq T hT32 _ _ m hm

theorem benchmark_binary64_eq (T : Nat) (hT32 : T < U32) (st : ℚ) (t : Nat → ℚ) (m : ℚ)
    (hm : max_element ((List.range T).map t) = some m)
    (s : BenchState) (hs : s.thread_times.length = T) :
    benchmark_binary64 T st t s =
      some (⟨fdiv OP_COUNT st, fdiv ((OP_COUNT : ℚ) * T) m,
              fdiv (fdiv ((OP_COUNT : ℚ) * T) m) (fdiv OP_COUNT st)⟩,
            ⟨[], (List.range T).map t⟩) := by
  unfold benchmark_binary64
  simp only []
  rw [launch_all_eq T t _ hs, to_double_op_count, aggregate_binary64_eq T hT32 _ _ m hm]
  rfl

/-- The three roundings of a round of five workers with every elapsed time 3 s. -/
theorem fdiv_single_at_3 : fdiv 1000000000 3 = 5592405333333333 / 16777216 := by
  unfold fdiv
  rw [round_binary64_eq _ 28 (by norm_num) (by norm_num) (by norm_num)]
  rw [round_half_even_down _ 5592405333333333 (by norm_num) (by norm_num)]
  norm_num

theorem fdiv_multi_at_3 : fdiv 5000000000 3 = 6990506666666667 / 4194304 := by
  unfold fdiv
  rw [round_binary64_eq _ 30 (by norm_num) (by norm_num) (by norm_num)]
  rw [round_half_even_up _ 6990506666666666 (by norm_num) (by norm_num)]
  norm_num

theorem fdiv_ratio_at_3 :
    fdiv (6990506666666667 / 4194304) (5592405333333333 / 16777216)
      = 5629499534213121 / 1125899906842624 := by
  unfold fdiv
  rw [round_binary64_eq _ 2 (by norm_num) (by norm_num) (by norm_num)]
  rw [round_half_even_up _ 5629499534213120 (by norm_num) (by norm_num)]
  norm_num

/-! ## The claims on the aggregation round -/

/-- C1: for a thread count `T ≥ 1` (an `unsigned`) and per-worker elapsed times
`t 0, …, t (T-1)`, all positive, the multi-thread rate of `run_benchmark` and of the
`benchmark` lambda is `(OP_COUNT * T) / m`, where `m` is the maximum of exactly the
`T` times written in this round: `m` is one of them and bounds all of them,
whatever `thread_times` held before. For the times `1` and `3` the rate is
`2e9 / 3`, which is neither `2e9 / mean` nor `2e9 / sum`. -/
theorem C1_multi_rate_is_work_over_max (T : Nat) (hT : 1 ≤ T) (hT32 : T < U32)
    (single_thread_time : ℚ) (t : Nat → ℚ) (hpos : ∀ i < T, 0 < t i)
    (s : BenchState) (hs : s.thread_times.length = T) :
    (∃ m, m ∈ (List.range T).map t ∧ (∀ i < T, t i ≤ m) ∧ 0 < m ∧
      (∃ r, run_benchmark T single_thread_time t = some r ∧
        r.multi_worker_rate = (OP_COUNT * T : ℚ) / m) ∧
      (∃ r s', benchmark T single_thread_time t s = some (r, s') ∧
        r.multi_worker_rate = (OP_COUNT * T : ℚ) / m)) ∧
    (∃ r, run_benchmark 2 1 (fun i => if i = 0 then 1 else 3) = some r ∧
      r.multi_worker_rate = 2000000000 / 3 ∧
      r.multi_worker_rate ≠ 2000000000 / ((1 + 3) / 2) ∧
      r.multi_worker_rate ≠ 2000000000 / (1 + 3)) := by
  constructor
  · obtain ⟨m, hm, hmem, hub⟩ := round_max T hT t
    refine ⟨m, hmem, hub, ?_, ?_, ?_⟩
    · obtain ⟨i, hi, rfl⟩ := List.mem_map.mp hmem
      exact hpos i (List.mem_range.mp hi)
    · exact ⟨_, run_benchmark_eq T hT32 _ t m hm, rfl⟩
    · exact ⟨_, _, benchmark_eq T hT32 _ t m hm s hs, rfl⟩
  · have hm : max_element ((List.range 2).map (fun i => if i = 0 then (1 : ℚ) else 3))
        = some 3 := by
      simp [List.range_succ, max_element, max_element_go]
    refine ⟨_, run_benchmark_eq 2 (by unfold U32; norm_num) 1 _ 3 hm, ?_, ?_, ?_⟩ <;>
      simp only [OP_COUNT] <;> norm_num

/-- Witness of C1 at two workers with elapsed times `1` and `3`, starting from the
state `main` builds. -/
theorem C1_multi_rate_is_work_over_max_witness :
    (∃ m, m ∈ (List.range 2).map (fun i => if i = 0 then (1 : ℚ) else 3) ∧
      (∀ i < 2, (fun i => if i = 0 then (1 : ℚ) else 3) i ≤ m) ∧ 0 < m ∧
      (∃ r, run_benchmark 2 1 (fun i => if i = 0 then 1 else 3) = some r ∧
        r.multi_worker_rate = (OP_COUNT * (2 : Nat) : ℚ) / m) ∧
      (∃ r s', benchmark 2 1 (fun i => if i = 0 then 1 else 3) (BenchState.init 2)
          = some (r, s') ∧
        r.multi_worker_rate = (OP_COUNT * (2 : Nat) : ℚ) / m)) ∧
    (∃ r, run_benchmark 2 1 (fun i => if i = 0 then 1 else 3) = some r ∧
      r.multi_worker_rate = 2000000000 / 3 ∧
      r.multi_worker_rate ≠ 2000000000 / ((1 + 3) / 2) ∧
      r.multi_worker_rate ≠ 2000000000 / (1 + 3)) :=
  C1_multi_rate_is_work_over_max 2 (by decide) (by unfold U32; norm_num) 1
    (fun i => if i = 0 then 1 else 3)
    (by intro i _; by_cases h : i = 0 <;> simp [h])
    (BenchState.init 2) (by simp [BenchState.init])

/-- C6, as stated, fails on the code: with five workers and an elapsed time of
exactly 3 s (a `double`) reported by the baseline and by every worker, the three
`double` divisions of `run_benchmark` and of the `benchmark` lambda give
`single_worker_rate = 5592405333333333 / 2^24`,
`multi_worker_rate = 6990506666666667 / 2^22` and
`scaling_ratio = 5 + 2^-50` (5.000000000000001), which is not `T = 5`. -/
theorem C6_scaling_ratio_differs_from_T :
    round_binary64 3 = 3 ∧
    (∃ r, run_benchmark_binary64 5 3 (fun _ => 3) = some r ∧
      r.single_worker_rate = 5592405333333333 / 16777216 ∧
      r.multi_worker_rate = 6990506666666667 / 4194304 ∧
      r.scaling_ratio = 5 + 1 / 2 ^ 50 ∧ r.scaling_ratio ≠ ((5 : Nat) : ℚ)) ∧
    (∃ r s', benchmark_binary64 5 3 (fun _ => 3) (BenchState.init 5) = some (r, s') ∧
      r.scaling_ratio = 5 + 1 / 2 ^ 50 ∧ r.scaling_ratio ≠ ((5 : Nat) : ℚ)) := by
  have h5 : (5 : Nat) < U32 := by unfold U32; norm_num
  have hm : max_element ((List.range 5).map (fun _ => (3 : ℚ))) = some 3 :=
    max_element_const 5 (by decide) 3
  have hs : fdiv (OP_COUNT : ℚ) 3 = 5592405333333333 / 16777216 := by
    rw [← fdiv_single_at_3]; unfold OP_COUNT; norm_num
  have hmu : fdiv ((OP_COUNT : ℚ) * (5 : Nat)) 3 = 6990506666666667 / 4194304 := by
    rw [← fdiv_multi_at_3]; unfold OP_COUNT; norm_num
  refine ⟨?_, ⟨_, run_benchmark_binary64_eq 5 h5 3 _ 3 hm, ?_, ?_, ?_, ?_⟩,
    ⟨_, _, benchmark_binary64_eq 5 h5 3 _ 3 hm (BenchState.init 5)
      (by simp [BenchState.init]), ?_, ?_⟩⟩
  · have := round_binary64_natCast 3 (by norm_num)
    simpa using this
  · exact hs
  · exact hmu
  · simp only [hs, hmu, fdiv_ratio_at_3]; norm_num
  · simp only [hs, hmu, fdiv_ratio_at_3]; norm_num
  · simp only [hs, hmu, fdiv_ratio_at_3]; norm_num
  · simp only [hs, hmu, fdiv_ratio_at_3]; norm_num

/-- C6, amended: if the baseline and each of the `T ≥ 1` workers report the same
elapsed time `t > 0`, `run_benchmark` and the `benchmark` lambda yield
`single_worker_rate = OP_COUNT / t`, `multi_worker_rate = OP_COUNT * T / t` and
`scaling_ratio = multi_worker_rate / single_worker_rate`, each quotient rounded to
binary64. When the two rates are computed without rounding (`OP_COUNT / t` and
`OP_COUNT * T / t` are binary64 values) the scaling ratio is `T`; with `t = 1` and
`T = 4` the three figures are `1e9`, `4e9` and `4`. -/
theorem C6_identical_times_rounded_rates (T : Nat) (hT : 1 ≤ T) (hT32 : T < U32)
    (t : ℚ) (ht : 0 < t) (s : BenchState) (hs : s.thread_times.length = T) :
    (∃ r, run_benchmark_binary64 T t (fun _ => t) = some r ∧
      r.single_worker_rate = round_binary64 (OP_COUNT / t) ∧
      r.multi_worker_rate = round_binary64 (OP_COUNT * T / t) ∧
      r.scaling_ratio = round_binary64 (r.multi_worker_rate / r.single_worker_rate) ∧
      (round_binary64 (OP_COUNT / t) = OP_COUNT / t →
        round_binary64 (OP_COUNT * T / t) = OP_COUNT * T / t → r.scaling_ratio = T)) ∧
    (∃ r s', benchmark_binary64 T t (fun _ => t) s = some (r, s') ∧
      r.single_worker_rate = round_binary64 (OP_COUNT / t) ∧
      r.multi_worker_rate = round_binary64 (OP_COUNT * T / t) ∧
      r.scaling_ratio = round_binary64 (r.multi_worker_rate / r.single_worker_rate) ∧
      (round_binary64 (OP_COUNT / t) = OP_COUNT / t →
        round_binary64 (OP_COUNT * T / t) = OP_COUNT * T / t → r.scaling_ratio = T)) ∧
    run_benchmark_binary64 4 1 (fun _ => 1) = some ⟨1000000000, 4000000000, 4⟩ ∧
    (benchmark_binary64 4 1 (fun _ => 1) (BenchState.init 4)).map Prod.fst
      = some ⟨1000000000, 4000000000, 4⟩ := by
  have hm := max_element_const T hT t
  have h4 : max_element ((List.range 4).map (fun _ => (1 : ℚ))) = some 1 :=
    max_element_const 4 (by decide) 1
  have hT53 : T < 2 ^ 53 := by unfold U32 at hT32; omega
  have hexact : round_binary64 (OP_COUNT / t) = OP_COUNT / t →
      round_binary64 (OP_COUNT * T / t) = OP_COUNT * T / t →
      fdiv (fdiv ((OP_COUNT : ℚ) * T) t) (fdiv OP_COUNT t) = T := by
    intro h1 h2
    unfold fdiv
    rw [h1, h2, ideal_ratio T t ht]
    exact round_binary64_natCast T hT53
  have c1 : fdiv (1000000000 : ℚ) 1 = 1000000000 := by
    unfold fdiv
    have := round_binary64_natCast 1000000000 (by norm_num)
    simpa using this
  have c2 : fdiv (4000000000 : ℚ) 1 = 4000000000 := by
    unfold fdiv
    have := round_binary64_natCast 4000000000 (by norm_num)
    simpa using this
  have c3 : fdiv (4000000000 : ℚ) 1000000000 = 4 := by
    unfold fdiv
    have := round_binary64_natCast 4 (by norm_num)
    have h : (4000000000 : ℚ) / 1000000000 = ((4 : ℕ) : ℚ) := by norm_num
    rw [h, this]
    norm_num
  refine ⟨⟨_, run_benchmark_binary64_eq T hT32 t _ t hm, rfl, rfl, rfl, hexact⟩,
    ⟨_, _, benchmark_binary64_eq T hT32 t _ t hm s hs, rfl, rfl, rfl, hexact⟩, ?_, ?_⟩
  · rw [run_benchmark_binary64_eq 4 (by unfold U32; norm_num) 1 _ 1 h4]
    simp only [OP_COUNT]
    norm_num [c1, c2, c3]
  · rw [benchmark_binary64_eq 4 (by unfold U32; norm_num) 1 _ 1 h4 (BenchState.init 4)
      (by simp [BenchState.init])]
    simp only [OP_COUNT, Option.map_some']
    norm_num [c1, c2, c3]

/-- Witness of C6 (amended) at `T = 4`, `t = 1`. -/
theorem C6_identical_times_rounded_rates_witness :
    (∃ r, run_benchmark_binary64 4 1 (fun _ => 1) = some r ∧
      r.single_worker_rate = round_binary64 (OP_COUNT / 1) ∧
      r.multi_worker_rate = round_binary64 (OP_COUNT * (4 : Nat) / 1) ∧
      r.scaling_ratio = round_binary64 (r.multi_worker_rate / r.single_worker_rate) ∧
      (round_binary64 (OP_COUNT / 1) = OP_COUNT / 1 →
        round_binary64 (OP_COUNT * (4 : Nat) / 1) = OP_COUNT * (4 : Nat) / 1 →
        r.scaling_ratio = (4 : Nat))) ∧
    (∃ r s', benchmark_binary64 4 1 (fun _ => 1) (BenchState.init 4) = some (r, s') ∧
      r.single_worker_rate = round_binary64 (OP_COUNT / 1) ∧
      r.multi_worker_rate = round_binary64 (OP_COUNT * (4 : Nat) / 1) ∧
      r.scaling_ratio = round_binary64 (r.multi_worker_rate / r.single_worker_rate) ∧
      (round_binary64 (OP_COUNT / 1) = OP_COUNT / 1 →
        round_binary64 (OP_COUNT * (4 : Nat) / 1) = OP_COUNT * (4 : Nat) / 1 →
        r.scaling_ratio = (4 : Nat))) ∧
    run_benchmark_binary64 4 1 (fun _ => 1) = some ⟨1000000000, 4000000000, 4⟩ ∧
    (benchmark_binary64 4 1 (fun _ => 1) (BenchState.init 4)).map Prod.fst
      = some ⟨1000000000, 4000000000, 4⟩ :=
  C6_identical_times_rounded_rates 4 (by decide) (by unfold U32; norm_num) 1 (by norm_num)
    (BenchState.init 4) (by simp [BenchState.init])

/-- C7: with every worker, baseline included, reporting the same elapsed time
`t > 0` whatever the thread count, the scaling ratio is non-decreasing in the
thread count: for `1 ≤ T1 ≤ T2` both rounds return, and the ratio for `T1` is at
most the ratio for `T2` (in `run_benchmark` and in the `benchmark` lambda). -/
theorem C7_scaling_ratio_monotone (T1 T2 : Nat) (h1 : 1 ≤ T1) (h12 : T1 ≤ T2)
    (hT32 : T2 < U32) (t : ℚ) (ht : 0 < t)
    (s1 s2 : BenchState) (hs1 : s1.thread_times.length = T1)
    (hs2 : s2.thread_times.length = T2) :
    (∃ r1 r2, run_benchmark T1 t (fun _ => t) = some r1 ∧
      run_benchmark T2 t (fun _ => t) = some r2 ∧
      r1.scaling_ratio ≤ r2.scaling_ratio) ∧
    (∃ r1 r2 s1' s2', benchmark T1 t (fun _ => t) s1 = some (r1, s1') ∧
      benchmark T2 t (fun _ => t) s2 = some (r2, s2') ∧
      r1.scaling_ratio ≤ r2.scaling_ratio) := by
  have h2 : 1 ≤ T2 := le_trans h1 h12
  have hT1 : T1 < U32 := lt_of_le_of_lt h12 hT32
  have hm1 := max_element_const T1 h1 t
  have hm2 := max_element_const T2 h2 t
  have hle : ((OP_COUNT * T1 : ℚ) / t) / ((OP_COUNT : ℚ) / t)
      ≤ ((OP_COUNT * T2 : ℚ) / t) / ((OP_COUNT : ℚ) / t) := by
    rw [ideal_ratio T1 t ht, ideal_ratio T2 t ht]
    exact_mod_cast h12
  exact ⟨⟨_, _, run_benchmark_eq T1 hT1 t _ t hm1, run_benchmark_eq T2 hT32 t _ t hm2, hle⟩,
    ⟨_, _, _, _, benchmark_eq T1 hT1 t _ t hm1 s1 hs1,
      benchmark_eq T2 hT32 t _ t hm2 s2 hs2, hle⟩⟩

/-- Witness of C7 at `T1 = 2`, `T2 = 4`, `t = 1`. -/
theorem C7_scaling_ratio_monotone_witness :
    (∃ r1 r2, run_benchmark 2 1 (fun _ => 1) = some r1 ∧
      run_benchmark 4 1 (fun _ => 1) = some r2 ∧
      r1.scaling_ratio ≤ r2.scaling_ratio) ∧
    (∃ r1 r2 s1' s2', benchmark 2 1 (fun _ => 1) (BenchState.init 2) = some (r1, s1') ∧
      benchmark 4 1 (fun _ => 1) (BenchState.init 4) = some (r2, s2') ∧
      r1.scaling_ratio ≤ r2.scaling_ratio) :=
  C7_scaling_ratio_monotone 2 4 (by decide) (by decide) (by unfold U32; norm_num) 1
    (by norm_num) (BenchState.init 2) (BenchState.init 4)
    (by simp [BenchState.init]) (by simp [BenchState.init])

/-- C10: for `T ≥ 1` and a work unit that returns the same elapsed times on every
call, the aggregation round is idempotent. `run_benchmark` returns a result `r`;
the `benchmark` lambda, run on any state whose `thread_times` has `T` slots,
returns the same `r` whatever `threads` and `thread_times` held, leaves `threads`
empty, and returns `r` again when run on the state it left. -/
theorem C10_round_idempotent (T : Nat) (hT : 1 ≤ T) (hT32 : T < U32)
    (single_thread_time : ℚ) (t : Nat → ℚ)
    (s : BenchState) (hs : s.thread_times.length = T) :
    ∃ r s1 s2, run_benchmark T single_thread_time t = some r ∧
      r.scaling_ratio = r.multi_worker_rate / r.single_worker_rate ∧
      benchmark T single_thread_time t s = some (r, s1) ∧
      s1.threads = [] ∧ s1.thread_times.length = T ∧
      benchmark T single_thread_time t s1 = some (r, s2) ∧
      s2.threads = [] ∧
      (∀ s0 : BenchState, s0.thread_times.length = T →
        ∃ s0', benchmark T single_thread_time t s0 = some (r, s0') ∧ s0'.threads = []) := by
  obtain ⟨m, hm, _, _⟩ := round_max T hT t
  have hlen : ((List.range T).map t).length = T := by simp
  refine ⟨_, _, _, run_benchmark_eq T hT32 _ t m hm, rfl,
    benchmark_eq T hT32 _ t m hm s hs, rfl, hlen,
    benchmark_eq T hT32 _ t m hm _ hlen, rfl, ?_⟩
  intro s0 hs0
  exact ⟨_, benchmark_eq T hT32 _ t m hm s0 hs0, rfl⟩

/-- Witness of C10 at three workers with times `2`, `5`, `3`, on a state that a
previous round left with larger times and a stale thread entry. -/
theorem C10_round_idempotent_witness :
    ∃ r s1 s2, run_benchmark 3 2 (fun i => if i = 0 then 2 else if i = 1 then 5 else 3)
        = some r ∧
      r.scaling_ratio = r.multi_worker_rate / r.single_worker_rate ∧
      benchmark 3 2 (fun i => if i = 0 then 2 else if i = 1 then 5 else 3)
        ⟨[7], [9, 9, 9]⟩ = some (r, s1) ∧
      s1.threads = [] ∧ s1.thread_times.length = 3 ∧
      benchmark 3 2 (fun i => if i = 0 then 2 else if i = 1 then 5 else 3) s1
        = some (r, s2) ∧
      s2.threads = [] ∧
      (∀ s0 : BenchState, s0.thread_times.length = 3 →
        ∃ s0', benchmark 3 2 (fun i => if i = 0 then 2 else if i = 1 then 5 else 3) s0
          = some (r, s0') ∧ s0'.threads = []) :=
  C10_round_idempotent 3 (by decide) (by unfold U32; norm_num) 2
    (fun i => if i = 0 then 2 else if i = 1 then 5 else 3) ⟨[7], [9, 9, 9]⟩ rfl

/-! ### Lemmas on the partition and on the bandwidth figure -/

theorem to_size_t_natCast (T : Nat) (hT : T < U64) : to_size_t (T : Int) = T := by
  unfold to_size_t
  have h : ((T : Int) % (U64 : Int)) = ((T % U64 : Nat) : Int) := by
    exact (Int.natCast_mod T U64).symm
  rw [h, Nat.mod_eq_of_lt hT]
  exact Int.toNat_natCast T

theorem int_lt_U64 (T : Nat) (hT : T < 2 ^ 31) : T < U64 := by
  unfold U64
  omega

theorem int_lt_U32 (T : Nat) (hT : T < 2 ^ 31) : T < U32 := by
  unfold U32
  omega

theorem share_offset_no_wrap (S T i : Nat) (hS : S < U64) (hi : i < T) :
    (i * (S / T)) % U64 = i * (S / T) := by
  apply Nat.mod_eq_of_lt
  have h1 : i * (S / T) ≤ T * (S / T) := Nat.mul_le_mul_right _ (le_of_lt hi)
  have h2 : T * (S / T) ≤ S := Nat.mul_div_le S T
  omega

theorem shares_no_wrap (S T : Nat) (hS : S < U64) :
    (List.range T).map (fun i => (⟨(i * (S / T)) % U64, S / T⟩ : Share)) = even_shares S T := by
  unfold even_shares
  apply List.map_congr_left
  intro i hi
  rw [share_offset_no_wrap S T i hS (List.mem_range.mp hi)]

theorem measure_write_bandwidth_eq (S T : Nat) (hS : S < U64) (hT : 1 ≤ T)
    (hTint : T < 2 ^ 31) (start end_ : Int) :
    measure_write_bandwidth S T start end_ =
      some ⟨even_shares S T,
        ((S : ℚ) / (1024 * 1024 * 1024)) / (((end_ - start : Int) : ℚ) * (1 / 1000000000))⟩ := by
  unfold measure_write_bandwidth size_t_div
  rw [to_size_t_natCast T (int_lt_U64 T hTint)]
  have h0 : ¬ T = 0 := by omega
  simp only [h0, if_false, Int.toNat_natCast]
  rw [shares_no_wrap S T hS]

theorem measure_read_bandwidth_eq (S T : Nat) (hS : S < U64) (hT : 1 ≤ T)
    (hTint : T < 2 ^ 31) (start end_ : Int) :
    measure_read_bandwidth S T start end_ =
      some ⟨even_shares S T,
        ((S : ℚ) / (1024 * 1024 * 1024)) / (((end_ - start : Int) : ℚ) * (1 / 1000000000))⟩ := by
  unfold measure_read_bandwidth size_t_div
  rw [to_size_t_natCast T (int_lt_U64 T hTint)]
  have h0 : ¬ T = 0 := by omega
  simp only [h0, if_false, Int.toNat_natCast]
  rw [shares_no_wrap S T hS]

theorem even_shares_length (S T : Nat) : (even_shares S T).length = T := by
  simp [even_shares]

theorem even_shares_getElem? (S T i : Nat) (hi : i < T) :
    (even_shares S T)[i]? = some ⟨i * (S / T), S / T⟩ := by
  simp [even_shares, List.getElem?_map, List.getElem?_range hi]

theorem even_shares_getElem?_some (S T i : Nat) (a : Share)
    (h : (even_shares S T)[i]? = some a) : i < T ∧ a = ⟨i * (S / T), S / T⟩ := by
  have hi : i < T := by
    by_contra hn
    have : (even_shares S T)[i]? = none := by
      apply List.getElem?_eq_none
      rw [even_shares_length]
      omega
    rw [this] at h
    exact Option.noConfusion h
  rw [even_shares_getElem? S T i hi] at h
  exact ⟨hi, (Option.some.inj h).symm⟩

theorem even_shares_sum (S T : Nat) :
    ((even_shares S T).map Share.length).sum = T * (S / T) := by
  unfold even_shares
  rw [List.map_map]
  have hc : (Share.length ∘ fun i => ({ offset := i * (S / T), length := S / T } : Share))
      = fun _ => S / T := rfl
  rw [hc]
  simp

theorem even_shares_disjoint_lt (c i j x : Nat) (hij : i < j)
    (h1 : x < i * c + c) (h2 : j * c ≤ x) : False := by
  have h3 : (i + 1) * c ≤ j * c := Nat.mul_le_mul_right c hij
  rw [Nat.succ_mul] at h3
  omega

/-! ### Lemmas on the write units -/

theorem pattern_byte_eq_one (k : Nat) : pattern_byte k = 1 := by
  unfold pattern_byte value
  have h : k % 8 < 8 := Nat.mod_lt _ (by decide)
  interval_cases (k % 8) <;> norm_num

theorem store_apply (w : Nat) (mem : Memory) (addr a : Nat) :
    store w mem addr a = if addr ≤ a ∧ a < addr + w then 1 else mem a := by
  unfold store
  rw [pattern_byte_eq_one]

theorem trips_done (w chunk_size i : Nat) (hw : 0 < w) (hi : chunk_size ≤ i) :
    trips w chunk_size i = 0 := by
  unfold trips
  have h : chunk_size - i = 0 := Nat.sub_eq_zero_of_le hi
  rw [h]
  apply Nat.div_eq_of_lt
  omega

theorem trips_step (w chunk_size i : Nat) (hw : 0 < w) (hi : i < chunk_size) :
    trips w chunk_size i = trips w chunk_size (i + w) + 1 := by
  unfold trips
  by_cases hd : chunk_size - i ≤ w
  · have h0 : chunk_size - (i + w) = 0 := by omega
    rw [h0]
    have h1 : (0 + w - 1) / w = 0 := by
      apply Nat.div_eq_of_lt
      omega
    rw [h1]
    have h2 : chunk_size - i + w - 1 = (chunk_size - i - 1) + w := by omega
    rw [h2, Nat.add_div_right _ hw]
    have h3 : (chunk_size - i - 1) / w = 0 := by
      apply Nat.div_eq_of_lt
      omega
    rw [h3]
  · have h2 : chunk_size - i + w - 1 = (chunk_size - (i + w) + w - 1) + w := by omega
    rw [h2, Nat.add_div_right _ hw]

/-- The write loop started at index `i` with enough fuel returns, and the memory it
leaves holds the pattern on the `w * trips` bytes from `memory + i` on and is
unchanged elsewhere. -/
theorem write_loop_spec (w memory chunk_size : Nat) (hw : 0 < w)
    (hno : chunk_size + w ≤ U64) :
    ∀ (fuel i : Nat) (mem : Memory), trips w chunk_size i < fuel →
      write_loop w memory chunk_size fuel i mem =
        some (fun a => if memory + i ≤ a ∧ a < memory + i + w * trips w chunk_size i
          then 1 else mem a) := by
  intro fuel
  induction fuel with
  | zero => intro i mem h; exact absurd h (Nat.not_lt_zero _)
  | succ f ih =>
    intro i mem h
    unfold write_loop
    by_cases hi : i < chunk_size
    · rw [if_pos hi]
      have hmod : (i + w) % U64 = i + w := Nat.mod_eq_of_lt (by omega)
      have hst := trips_step w chunk_size i hw hi
      rw [hmod, ih (i + w) _ (by omega)]
      congr 1
      funext a
      rw [store_apply, hst, Nat.mul_succ]
      by_cases h1 : memory + (i + w) ≤ a ∧
          a < memory + (i + w) + w * trips w chunk_size (i + w)
      · rw [if_pos h1, if_pos (by omega)]
      · rw [if_neg h1]
        by_cases h2 : memory + i ≤ a ∧ a < memory + i + w
        · rw [if_pos h2, if_pos (by omega)]
        · rw [if_neg h2, if_neg (by omega)]
    · rw [if_neg hi, trips_done w chunk_size i hw (by omega)]
      congr 1
      funext a
      rw [if_neg (by omega)]

theorem bandwidth_mul_seconds (S n : ℚ) (hn : n ≠ 0) :
    (S / (1024 * 1024 * 1024)) / (n * (1 / 1000000000)) * (n * (1 / 10 ^ 9))
      = S / 1073741824 := by
  field_simp
  ring

theorem lane_additions_eq (l : WorkLoop) : l.lane_additions = l.iterations * l.instr.lanes := by
  unfold WorkLoop.lane_additions
  generalize l.iterations = n
  induction n with
  | zero => simp
  | succ k ih => rw [Function.iterate_succ_apply', ih, Nat.succ_mul]

/-! ## The claims on the partition, the work units and the bandwidth figure -/

/-- C2: for a region of `S` bytes (a `size_t`) and a thread count `T ≥ 1` (an
`int`), `measure_write_bandwidth` and `measure_read_bandwidth` create `T` workers;
worker `i` receives the offset `i * floor(S/T)` and the length `floor(S/T)`.
Consecutive shares are contiguous, distinct shares are disjoint, the lengths sum
to `T * floor(S/T) ≤ S`. For `S = 4096`, `T = 4` the shares are `[0,1024)`,
`[1024,2048)`, `[2048,3072)`, `[3072,4096)`. -/
theorem C2_partition_shares (S T : Nat) (hS : S < U64) (hT : 1 ≤ T) (hTint : T < 2 ^ 31)
    (start end_ : Int) :
    (∃ r, measure_write_bandwidth S T start end_ = some r ∧
      measure_read_bandwidth S T start end_ = some r ∧
      r.shares.length = T ∧
      (∀ i, i < T → r.shares[i]? = some ⟨i * (S / T), S / T⟩) ∧
      (∀ (i : Nat) (a b : Share), r.shares[i]? = some a → r.shares[i + 1]? = some b →
        a.offset + a.length = b.offset) ∧
      (∀ (i j : Nat) (a b : Share), i ≠ j → r.shares[i]? = some a → r.shares[j]? = some b →
        ∀ x, ¬ (a.contains x ∧ b.contains x)) ∧
      (r.shares.map Share.length).sum = T * (S / T) ∧ T * (S / T) ≤ S) ∧
    (∃ r, measure_write_bandwidth 4096 4 start end_ = some r ∧
      measure_read_bandwidth 4096 4 start end_ = some r ∧
      r.shares = [⟨0, 1024⟩, ⟨1024, 1024⟩, ⟨2048, 1024⟩, ⟨3072, 1024⟩]) := by
  constructor
  · refine ⟨_, measure_write_bandwidth_eq S T hS hT hTint start end_,
      measure_read_bandwidth_eq S T hS hT hTint start end_,
      even_shares_length S T, fun i hi => even_shares_getElem? S T i hi, ?_, ?_,
      even_shares_sum S T, Nat.mul_div_le S T⟩
    · intro i a b ha hb
      obtain ⟨_, rfl⟩ := even_shares_getElem?_some S T i a ha
      obtain ⟨_, rfl⟩ := even_shares_getElem?_some S T (i + 1) b hb
      simp only [Nat.succ_mul]
    · intro i j a b hij ha hb x hx
      obtain ⟨_, rfl⟩ := even_shares_getElem?_some S T i a ha
      obtain ⟨_, rfl⟩ := even_shares_getElem?_some S T j b hb
      obtain ⟨⟨ha1, ha2⟩, hb1, hb2⟩ := hx
      simp only at ha1 ha2 hb1 hb2
      rcases Nat.lt_or_gt_of_ne hij with h | h
      · exact even_shares_disjoint_lt (S / T) i j x h ha2 hb1
      · exact even_shares_disjoint_lt (S / T) j i x h hb2 ha1
  · have h4 : (4 : Nat) < 2 ^ 31 := by norm_num
    have hS4 : (4096 : Nat) < U64 := by unfold U64; norm_num
    exact ⟨_, measure_write_bandwidth_eq 4096 4 hS4 (by decide) h4 start end_,
      measure_read_bandwidth_eq 4096 4 hS4 (by decide) h4 start end_, rfl⟩

/-- Witness of C2 at `S = 10`, `T = 3`: three shares of three bytes, one byte left. -/
theorem C2_partition_shares_witness :
    (∃ r, measure_write_bandwidth 10 (3 : Nat) 0 1 = some r ∧
      measure_read_bandwidth 10 (3 : Nat) 0 1 = some r ∧
      r.shares.length = 3 ∧
      (∀ i, i < 3 → r.shares[i]? = some ⟨i * (10 / 3), 10 / 3⟩) ∧
      (∀ (i : Nat) (a b : Share), r.shares[i]? = some a → r.shares[i + 1]? = some b →
        a.offset + a.length = b.offset) ∧
      (∀ (i j : Nat) (a b : Share), i ≠ j → r.shares[i]? = some a → r.shares[j]? = some b →
        ∀ x, ¬ (a.contains x ∧ b.contains x)) ∧
      (r.shares.map Share.length).sum = 3 * (10 / 3) ∧ 3 * (10 / 3) ≤ 10) ∧
    (∃ r, measure_write_bandwidth 4096 4 0 1 = some r ∧
      measure_read_bandwidth 4096 4 0 1 = some r ∧
      r.shares = [⟨0, 1024⟩, ⟨1024, 1024⟩, ⟨2048, 1024⟩, ⟨3072, 1024⟩]) :=
  C2_partition_shares 10 3 (by unfold U64; norm_num) (by decide) (by norm_num) 0 1

/-- C3, evaluated at `S = 1073741824`, `T = 3` with the region at address `0`: the
three shares are `357913941` bytes long. The scalar write unit of worker 0 runs
`44739243` stores and overwrites the bytes `357913941 .. 357913943`, which lie in
the share of worker 1 and not in its own; the scalar write unit of worker 2
overwrites the bytes `1073741824` and `1073741825`, past the end of the region, and
its AVX write unit overwrites up to byte `1073741833`. -/
theorem C3_write_unit_leaves_its_share :
    (∃ r, measure_write_bandwidth 1073741824 3 0 1 = some r ∧
      r.shares = [⟨0, 357913941⟩, ⟨357913941, 357913941⟩, ⟨715827882, 357913941⟩]) ∧
    (∀ mem : Memory, ∃ mem', write_memory_chunk_scalar 44739244 0 357913941 mem = some mem' ∧
      mem' 357913941 = 1 ∧ mem' 357913942 = 1 ∧ mem' 357913943 = 1) ∧
    ¬ (⟨0, 357913941⟩ : Share).contains 357913941 ∧
    (⟨357913941, 357913941⟩ : Share).contains 357913941 ∧
    (∀ mem : Memory, ∃ mem',
      write_memory_chunk_scalar 44739244 715827882 357913941 mem = some mem' ∧
      mem' 1073741824 = 1 ∧ mem' 1073741825 = 1) ∧
    (∀ mem : Memory, ∃ mem',
      write_memory_chunk_avx 11184812 715827882 357913941 mem = some mem' ∧
      mem' 1073741824 = 1 ∧ mem' 1073741833 = 1) := by
  have h8 : trips 8 357913941 0 = 44739243 := by unfold trips; norm_num
  have h32 : trips 32 357913941 0 = 11184811 := by unfold trips; norm_num
  have hno8 : 357913941 + 8 ≤ U64 := by unfold U64; norm_num
  have hno32 : 357913941 + 32 ≤ U64 := by unfold U64; norm_num
  refine ⟨⟨_, measure_write_bandwidth_eq 1073741824 3 (by unfold U64; norm_num) (by decide)
      (by norm_num) 0 1, rfl⟩, ?_, by decide, by decide, ?_, ?_⟩
  · intro mem
    refine ⟨_, write_loop_spec 8 0 357913941 (by decide) hno8 44739244 0 mem
      (by rw [h8]; decide), ?_, ?_, ?_⟩ <;> simp only [h8] <;> norm_num
  · intro mem
    refine ⟨_, write_loop_spec 8 715827882 357913941 (by decide) hno8 44739244 0 mem
      (by rw [h8]; decide), ?_, ?_⟩ <;> simp only [h8] <;> norm_num
  · intro mem
    refine ⟨_, write_loop_spec 32 715827882 357913941 (by decide) hno32 11184812 0 mem
      (by rw [h32]; decide), ?_, ?_⟩ <;> simp only [h32] <;> norm_num

/-- C4, as stated, fails on the memory benchmarks: in a measurement of one worker
over 1 GiB whose work unit runs from `100` ns to `200` ns while the measuring
function samples the clock at `0` ns and at `1000` ns, the worker windows lie
between the two samples, the maximum worker elapsed time is `100` ns, and the
bandwidth returned by `measure_write_bandwidth` and `measure_read_bandwidth` is
not the region size in GiB divided by that maximum. -/
theorem C4_memory_rate_not_over_worker_max :
    ∃ e : MemExecution, e.ordered ∧ e.windows.length = 1 ∧
      ∃ r m, measure_write_bandwidth 1073741824 1 e.start e.end_ = some r ∧
        measure_read_bandwidth 1073741824 1 e.start e.end_ = some r ∧
        max_element e.worker_elapsed = some m ∧ 0 < m ∧
        r.bandwidth ≠ ((1073741824 : ℚ) / (1024 * 1024 * 1024)) / (m * (1 / 1000000000)) := by
  refine ⟨⟨0, [(100, 200)], 1000⟩, ?_, rfl, ?_⟩
  · intro w hw
    simp only [List.mem_singleton] at hw
    subst hw
    decide
  · refine ⟨_, 100,
      measure_write_bandwidth_eq 1073741824 1 (by unfold U64; norm_num) (by decide)
        (by norm_num) 0 1000,
      measure_read_bandwidth_eq 1073741824 1 (by unfold U64; norm_num) (by decide)
        (by norm_num) 0 1000, ?_, by norm_num, ?_⟩
    · simp [MemExecution.worker_elapsed, max_element, max_element_go]
      norm_num
    · norm_num

/-- C4, amended: in `run_benchmark` and the `benchmark` lambda the time that divides
`OP_COUNT * T` is the maximum `m` of the workers' elapsed times, each the
difference `thread_time (b i) (e i)` of the two clock samples of worker `i`. In
`measure_write_bandwidth` and `measure_read_bandwidth` the time that divides the
region size in GiB is the span between the sample taken before the first thread
is created and the sample taken after the last join. -/
theorem C4_elapsed_time_per_kind (T : Nat) (hT : 1 ≤ T) (hTint : T < 2 ^ 31)
    (single_thread_time : ℚ) (b e : Nat → ℚ)
    (s : BenchState) (hs : s.thread_times.length = T)
    (S : Nat) (hS : S < U64) (start end_ : Int) :
    (∃ m, m ∈ (List.range T).map (fun i => thread_time (b i) (e i)) ∧
      (∀ i < T, thread_time (b i) (e i) ≤ m) ∧
      (∃ r, run_benchmark T single_thread_time (fun i => thread_time (b i) (e i)) = some r ∧
        r.multi_worker_rate = (OP_COUNT * T : ℚ) / m) ∧
      (∃ r s', benchmark T single_thread_time (fun i => thread_time (b i) (e i)) s
          = some (r, s') ∧
        r.multi_worker_rate = (OP_COUNT * T : ℚ) / m)) ∧
    (∃ r, measure_write_bandwidth S T start end_ = some r ∧
      measure_read_bandwidth S T start end_ = some r ∧
      r.bandwidth = ((S : ℚ) / (1024 * 1024 * 1024)) /
        (((end_ - start : Int) : ℚ) * (1 / 1000000000))) := by
  constructor
  · obtain ⟨m, hm, hmem, hub⟩ := round_max T hT (fun i => thread_time (b i) (e i))
    exact ⟨m, hmem, hub, ⟨_, run_benchmark_eq T (int_lt_U32 T hTint) _ _ m hm, rfl⟩,
      ⟨_, _, benchmark_eq T (int_lt_U32 T hTint) _ _ m hm s hs, rfl⟩⟩
  · exact ⟨_, measure_write_bandwidth_eq S T hS hT hTint start end_,
      measure_read_bandwidth_eq S T hS hT hTint start end_, rfl⟩

/-- Witness of C4 (amended) at two workers whose work units run from `0` s to `1` s
and from `2` s to `5` s, and a memory measurement sampled at `0` ns and `1000` ns. -/
theorem C4_elapsed_time_per_kind_witness :
    (∃ m, m ∈ (List.range 2).map
        (fun i => thread_time ((fun i => if i = 0 then 0 else 2) i)
          ((fun i => if i = 0 then 1 else 5) i)) ∧
      (∀ i < 2, thread_time ((fun i => if i = 0 then 0 else 2) i)
          ((fun i => if i = 0 then 1 else 5) i) ≤ m) ∧
      (∃ r, run_benchmark 2 1
          (fun i => thread_time ((fun i => if i = 0 then 0 else 2) i)
            ((fun i => if i = 0 then 1 else 5) i)) = some r ∧
        r.multi_worker_rate = (OP_COUNT * (2 : Nat) : ℚ) / m) ∧
      (∃ r s', benchmark 2 1
          (fun i => thread_time ((fun i => if i = 0 then 0 else 2) i)
            ((fun i => if i = 0 then 1 else 5) i)) (BenchState.init 2) = some (r, s') ∧
        r.multi_worker_rate = (OP_COUNT * (2 : Nat) : ℚ) / m)) ∧
    (∃ r, measure_write_bandwidth 4096 (2 : Nat) 0 1000 = some r ∧
      measure_read_bandwidth 4096 (2 : Nat) 0 1000 = some r ∧
      r.bandwidth = (((4096 : Nat) : ℚ) / (1024 * 1024 * 1024)) /
        (((1000 - 0 : Int) : ℚ) * (1 / 1000000000))) :=
  C4_elapsed_time_per_kind 2 (by decide) (by norm_num) 1
    (fun i => if i = 0 then 0 else 2) (fun i => if i = 0 then 1 else 5)
    (BenchState.init 2) (by simp [BenchState.init]) 4096 (by unfold U64; norm_num) 0 1000

/-- C5, evaluated at `ops = 1000000000`: `sse_operations<double>` runs `500000000`
iterations of `_mm_add_ps`, an add of four `float` lanes, hence `2000000000` lane
additions and none on a `double`; `sse_operations<int8_t>` executes `250000000`
lane additions, `avx_operations<int64_t>` `2000000000`, `avx_operations<float>`
`500000000` on `double` lanes. In each case the divisor of the loop divides `ops`,
and the count differs from `ops`. -/
theorem C5_lane_additions_differ_from_ops :
    sizeof_m128 / ElemType.double.sizeof ∣ 1000000000 ∧
    (sse_operations .double 1000000000).iterations = 500000000 ∧
    (sse_operations .double 1000000000).instr = .mm_add_ps ∧
    (sse_operations .double 1000000000).instr.lane_type = .float ∧
    (sse_operations .double 1000000000).lane_additions = 2000000000 ∧
    sizeof_m128 / ElemType.int8.sizeof ∣ 1000000000 ∧
    (sse_operations .int8 1000000000).instr.lane_type = .int32 ∧
    (sse_operations .int8 1000000000).lane_additions = 250000000 ∧
    sizeof_m256d / ElemType.int64.sizeof / 2 ∣ 1000000000 ∧
    (avx_operations .int64 1000000000).instr.lane_type = .int32 ∧
    (avx_operations .int64 1000000000).lane_additions = 2000000000 ∧
    sizeof_m256d / ElemType.float.sizeof ∣ 1000000000 ∧
    (avx_operations .float 1000000000).instr.lane_type = .double ∧
    (avx_operations .float 1000000000).lane_additions = 500000000 := by
  refine ⟨by decide, rfl, rfl, rfl, ?_, by decide, rfl, ?_, by decide, rfl, ?_,
    by decide, rfl, ?_⟩ <;> rw [lane_additions_eq] <;> rfl

/-- C8: for a region of `S` bytes, a thread count `T ≥ 1` and a measured span of
`end_ - start > 0` nanoseconds, `measure_write_bandwidth` and
`measure_read_bandwidth` return `(S / 1073741824) / seconds` with
`seconds = (end_ - start) * 10^-9`. For `S = 1073741824`, `T = 2` and a span of
`500000000` ns (0.5 s) the value is `2`. -/
theorem C8_bandwidth_is_gib_per_second (S T : Nat) (hS : S < U64) (hT : 1 ≤ T)
    (hTint : T < 2 ^ 31) (start end_ : Int) (hn : 0 < end_ - start) :
    (∃ r, measure_write_bandwidth S T start end_ = some r ∧
      r.bandwidth = ((S : ℚ) / 1073741824) / (((end_ - start : Int) : ℚ) * (1 / 10 ^ 9)) ∧
      r.bandwidth * (((end_ - start : Int) : ℚ) * (1 / 10 ^ 9)) = (S : ℚ) / 1073741824) ∧
    (∃ r, measure_read_bandwidth S T start end_ = some r ∧
      r.bandwidth = ((S : ℚ) / 1073741824) / (((end_ - start : Int) : ℚ) * (1 / 10 ^ 9)) ∧
      r.bandwidth * (((end_ - start : Int) : ℚ) * (1 / 10 ^ 9)) = (S : ℚ) / 1073741824) ∧
    (∃ r, measure_write_bandwidth 1073741824 2 0 500000000 = some r ∧ r.bandwidth = 2) ∧
    (∃ r, measure_read_bandwidth 1073741824 2 0 500000000 = some r ∧ r.bandwidth = 2) := by
  have hG : (1073741824 : Nat) < U64 := by unfold U64; norm_num
  have hq : (((end_ - start : Int) : ℚ)) ≠ 0 := by
    have : (0 : ℚ) < ((end_ - start : Int) : ℚ) := by exact_mod_cast hn
    exact ne_of_gt this
  refine ⟨⟨_, measure_write_bandwidth_eq S T hS hT hTint start end_, ?_, ?_⟩,
    ⟨_, measure_read_bandwidth_eq S T hS hT hTint start end_, ?_, ?_⟩,
    ⟨_, measure_write_bandwidth_eq 1073741824 2 hG (by decide) (by norm_num) 0 500000000, ?_⟩,
    ⟨_, measure_read_bandwidth_eq 1073741824 2 hG (by decide) (by norm_num) 0 500000000, ?_⟩⟩
  · norm_num
  · exact bandwidth_mul_seconds _ _ hq
  · norm_num
  · exact bandwidth_mul_seconds _ _ hq
  · norm_num
  · norm_num

/-- Witness of C8 at 1 GiB, two threads, a span of 0.5 s. -/
theorem C8_bandwidth_is_gib_per_second_witness :
    (∃ r, measure_write_bandwidth 1073741824 (2 : Nat) 0 500000000 = some r ∧
      r.bandwidth = (((1073741824 : Nat) : ℚ) / 1073741824) /
        (((500000000 - 0 : Int) : ℚ) * (1 / 10 ^ 9)) ∧
      r.bandwidth * (((500000000 - 0 : Int) : ℚ) * (1 / 10 ^ 9))
        = ((1073741824 : Nat) : ℚ) / 1073741824) ∧
    (∃ r, measure_read_bandwidth 1073741824 (2 : Nat) 0 500000000 = some r ∧
      r.bandwidth = (((1073741824 : Nat) : ℚ) / 1073741824) /
        (((500000000 - 0 : Int) : ℚ) * (1 / 10 ^ 9)) ∧
      r.bandwidth * (((500000000 - 0 : Int) : ℚ) * (1 / 10 ^ 9))
        = ((1073741824 : Nat) : ℚ) / 1073741824) ∧
    (∃ r, measure_write_bandwidth 1073741824 2 0 500000000 = some r ∧ r.bandwidth = 2) ∧
    (∃ r, measure_read_bandwidth 1073741824 2 0 500000000 = some r ∧ r.bandwidth = 2) :=
  C8_bandwidth_is_gib_per_second 1073741824 2 (by unfold U64; norm_num) (by decide)
    (by norm_num) 0 500000000 (by decide)

/-- C9, as stated, fails on the code: with a thread count of `0` neither
`measure_write_bandwidth`, `measure_read_bandwidth` nor `run_benchmark` ends in a
configuration error. The call runs into an operation without defined behaviour
(the division `size / thread_count` by zero, the dereference of `max_element` of an
empty `thread_times`); the sources have no check of the thread count and no
statement that reports an error. -/
theorem C9_zero_threads_no_configuration_error :
    ending (measure_write_bandwidth 4096 0 0 1000) = .error .undefined_operation ∧
    ending (measure_write_bandwidth 4096 0 0 1000) ≠ .error .configuration_error ∧
    ending (measure_read_bandwidth 4096 0 0 1000) = .error .undefined_operation ∧
    ending (measure_read_bandwidth 4096 0 0 1000) ≠ .error .configuration_error ∧
    ending (run_benchmark 0 1 (fun _ => 1)) = .error .undefined_operation ∧
    ending (run_benchmark 0 1 (fun _ => 1)) ≠ .error .configuration_error := by
  have hw : ending (measure_write_bandwidth 4096 0 0 1000) = .error .undefined_operation := rfl
  have hr : ending (measure_read_bandwidth 4096 0 0 1000) = .error .undefined_operation := rfl
  have hb : ending (run_benchmark 0 1 (fun _ => 1)) = .error .undefined_operation := rfl
  refine ⟨hw, ?_, hr, ?_, hb, ?_⟩
  · rw [hw]; intro h; cases h
  · rw [hr]; intro h; cases h
  · rw [hb]; intro h; cases h

/-- C9, amended: a thread count `T ≥ 1` is a precondition of partitioning, not a
checked condition. The sweeps of `main` in the memory benchmarks pass only thread
counts from `1` to `max_threads`. For every `T ≥ 1` the functions return:
`measure_write_bandwidth` and `measure_read_bandwidth` with the `T` shares
`[i * floor(S/T), (i+1) * floor(S/T))` and the bandwidth `(S / 2^30) / seconds`,
`run_benchmark` and the `benchmark` lambda with the rates `OP_COUNT / t0` and
`OP_COUNT * T / m`, `m` the maximum of the `T` times. With a thread count of `0` no
configuration error is raised: the call ends in an undefined operation, with no
thread of the round launched. -/
theorem C9_thread_count_precondition (T : Nat) (hT : 1 ≤ T) (hTint : T < 2 ^ 31)
    (S : Nat) (hS : S < U64) (start end_ : Int) (single_thread_time : ℚ) (func : Nat → ℚ)
    (s0 s : BenchState) (hs0 : s0.thread_times.length = 0) (hs : s.thread_times.length = T)
    (max_threads : Nat) :
    (ending (measure_write_bandwidth S 0 start end_) = .error .undefined_operation ∧
      ending (measure_read_bandwidth S 0 start end_) = .error .undefined_operation ∧
      launch_all 0 func (List.replicate 0 0) = [] ∧
      ending (run_benchmark 0 single_thread_time func) = .error .undefined_operation ∧
      ending (benchmark 0 single_thread_time func s0) = .error .undefined_operation) ∧
    (∀ tc ∈ thread_count_sweep max_threads, 1 ≤ tc ∧ tc ≤ (max_threads : Int)) ∧
    (ending (measure_write_bandwidth S T start end_) = .ok ⟨even_shares S T,
        ((S : ℚ) / (1024 * 1024 * 1024)) /
          (((end_ - start : Int) : ℚ) * (1 / 1000000000))⟩ ∧
      ending (measure_read_bandwidth S T start end_) = .ok ⟨even_shares S T,
        ((S : ℚ) / (1024 * 1024 * 1024)) /
          (((end_ - start : Int) : ℚ) * (1 / 1000000000))⟩ ∧
      (even_shares S T).length = T ∧
      (∀ i, i < T → (even_shares S T)[i]? = some ⟨i * (S / T), S / T⟩) ∧
      ∃ m, m ∈ (List.range T).map func ∧ (∀ i < T, func i ≤ m) ∧
        ending (run_benchmark T single_thread_time func) = .ok
          ⟨OP_COUNT / single_thread_time, (OP_COUNT * T : ℚ) / m,
            ((OP_COUNT * T : ℚ) / m) / (OP_COUNT / single_thread_time)⟩ ∧
        ending (benchmark T single_thread_time func s) = .ok
          (⟨OP_COUNT / single_thread_time, (OP_COUNT * T : ℚ) / m,
            ((OP_COUNT * T : ℚ) / m) / (OP_COUNT / single_thread_time)⟩,
           ⟨[], (List.range T).map func⟩)) := by
  refine ⟨⟨rfl, rfl, rfl, rfl, ?_⟩, ?_, ?_⟩
  · have h0 : s0.thread_times = [] := List.length_eq_zero.mp hs0
    unfold benchmark
    simp [launch_all, h0, aggregate, max_element, ending]
  · intro tc htc
    unfold thread_count_sweep at htc
    obtain ⟨k, hk, hkt⟩ := List.mem_map.mp htc
    have hk2 : k < max_threads := List.mem_range.mp hk
    constructor <;> omega
  · obtain ⟨m, hm, hmem, hub⟩ := round_max T hT func
    refine ⟨?_, ?_, even_shares_length S T, fun i hi => even_shares_getElem? S T i hi,
      m, hmem, hub, ?_, ?_⟩
    · rw [measure_write_bandwidth_eq S T hS hT hTint start end_]; rfl
    · rw [measure_read_bandwidth_eq S T hS hT hTint start end_]; rfl
    · rw [run_benchmark_eq T (int_lt_U32 T hTint) _ func m hm]; rfl
    · rw [benchmark_eq T (int_lt_U32 T hTint) _ func m hm s hs]; rfl

/-- Witness of C9 (amended) at `T = 2` on a region of 4096 bytes, with worker times
`1` and `3` and a machine of eight hardware threads. -/
theorem C9_thread_count_precondition_witness :
    (ending (measure_write_bandwidth 4096 0 0 1000) = .error .undefined_operation ∧
      ending (measure_read_bandwidth 4096 0 0 1000) = .error .undefined_operation ∧
      launch_all 0 (fun i => if i = 0 then 1 else 3) (List.replicate 0 0) = [] ∧
      ending (run_benchmark 0 1 (fun i => if i = 0 then 1 else 3))
        = .error .undefined_operation ∧
      ending (benchmark 0 1 (fun i => if i = 0 then 1 else 3) (BenchState.init 0))
        = .error .undefined_operation) ∧
    (∀ tc ∈ thread_count_sweep 8, 1 ≤ tc ∧ tc ≤ ((8 : Nat) : Int)) ∧
    (ending (measure_write_bandwidth 4096 (2 : Nat) 0 1000) = .ok ⟨even_shares 4096 2,
        (((4096 : Nat) : ℚ) / (1024 * 1024 * 1024)) /
          (((1000 - 0 : Int) : ℚ) * (1 / 1000000000))⟩ ∧
      ending (measure_read_bandwidth 4096 (2 : Nat) 0 1000) = .ok ⟨even_shares 4096 2,
        (((4096 : Nat) : ℚ) / (1024 * 1024 * 1024)) /
          (((1000 - 0 : Int) : ℚ) * (1 / 1000000000))⟩ ∧
      (even_shares 4096 2).length = 2 ∧
      (∀ i, i < 2 → (even_shares 4096 2)[i]? = some ⟨i * (4096 / 2), 4096 / 2⟩) ∧
      ∃ m, m ∈ (List.range 2).map (fun i => if i = 0 then (1 : ℚ) else 3) ∧
        (∀ i < 2, (fun i => if i = 0 then (1 : ℚ) else 3) i ≤ m) ∧
        ending (run_benchmark 2 1 (fun i => if i = 0 then 1 else 3)) = .ok
          ⟨OP_COUNT / 1, (OP_COUNT * (2 : Nat) : ℚ) / m,
            ((OP_COUNT * (2 : Nat) : ℚ) / m) / (OP_COUNT / 1)⟩ ∧
        ending (benchmark 2 1 (fun i => if i = 0 then 1 else 3) (BenchState.init 2)) = .ok
          (⟨OP_COUNT / 1, (OP_COUNT * (2 : Nat) : ℚ) / m,
            ((OP_COUNT * (2 : Nat) : ℚ) / m) / (OP_COUNT / 1)⟩,
           ⟨[], (List.range 2).map (fun i => if i = 0 then (1 : ℚ) else 3)⟩)) :=
  C9_thread_count_precondition 2 (by decide) (by norm_num) 4096 (by unfold U64; norm_num)
    0 1000 1 (fun i => if i = 0 then 1 else 3)
    (BenchState.init 0) (BenchState.init 2) rfl (by simp [BenchState.init]) 8

/-! ## The claims on the write units' contents and on the bytes counted -/

theorem trips_of_dvd (w chunk_size : Nat) (hw : 0 < w) (h : w ∣ chunk_size) :
    trips w chunk_size 0 = chunk_size / w ∧ w * trips w chunk_size 0 = chunk_size := by
  obtain ⟨k, rfl⟩ := h
  have h1 : trips w (w * k) 0 = k := by
    unfold trips
    have h2 : w * k - 0 + w - 1 = (w - 1) + w * k := by omega
    rw [h2, Nat.add_mul_div_left _ _ hw, Nat.div_eq_of_lt (by omega)]
    omega
  rw [h1, Nat.mul_div_cancel_left k hw]
  exact ⟨rfl, rfl⟩

/-- A write loop whose store width divides `chunk_size` leaves exactly the memory
of `pattern_fill`. -/
theorem write_loop_fills (w memory chunk_size fuel : Nat) (mem : Memory) (hw : 0 < w)
    (hdvd : w ∣ chunk_size) (hno : chunk_size + w ≤ U64) (hfuel : chunk_size / w < fuel) :
    write_loop w memory chunk_size fuel 0 mem = some (pattern_fill memory chunk_size mem) := by
  obtain ⟨ht, hcover⟩ := trips_of_dvd w chunk_size hw hdvd
  rw [write_loop_spec w memory chunk_size hw hno fuel 0 mem (by rw [ht]; exact hfuel)]
  congr 1
  funext a
  unfold pattern_fill
  rw [hcover, Nat.add_zero]

theorem tail_in_no_share (S T x : Nat) (hx : T * (S / T) ≤ x) (sh : Share)
    (hsh : sh ∈ even_shares S T) : ¬ sh.contains x := by
  unfold even_shares at hsh
  obtain ⟨i, hi, rfl⟩ := List.mem_map.mp hsh
  have hi' : i + 1 ≤ T := List.mem_range.mp hi
  have h1 : (i + 1) * (S / T) ≤ T * (S / T) := Nat.mul_le_mul_right _ hi'
  rw [Nat.succ_mul] at h1
  intro hc
  obtain ⟨_, h2⟩ := hc
  simp only at h2
  omega

/-- C11: for a `chunk_size` (a `size_t`) that is a multiple of 32, a buffer at
address `memory` and enough fuel for the scalar loop, `write_memory_chunk_scalar`,
`write_memory_chunk_sse` and `write_memory_chunk_avx` all return, with the same
memory: the one of `pattern_fill`, in which every byte at an offset in
`[0, chunk_size)` is `0x01` and every byte at an offset `≥ chunk_size` (and every
byte below `memory`) is unchanged. -/
theorem C11_write_units_same_contents (memory chunk_size fuel : Nat) (mem : Memory)
    (h32 : 32 ∣ chunk_size) (hsz : chunk_size < U64) (hfuel : chunk_size / 8 < fuel) :
    write_memory_chunk_scalar fuel memory chunk_size mem
      = some (pattern_fill memory chunk_size mem) ∧
    write_memory_chunk_sse fuel memory chunk_size mem
      = some (pattern_fill memory chunk_size mem) ∧
    write_memory_chunk_avx fuel memory chunk_size mem
      = some (pattern_fill memory chunk_size mem) ∧
    (∀ off, off < chunk_size → pattern_fill memory chunk_size mem (memory + off) = 0x01) ∧
    (∀ off, chunk_size ≤ off →
      pattern_fill memory chunk_size mem (memory + off) = mem (memory + off)) ∧
    (∀ a, a < memory → pattern_fill memory chunk_size mem a = mem a) := by
  have h16 : 16 ∣ chunk_size := Dvd.dvd.trans (by decide) h32
  have h8 : 8 ∣ chunk_size := Dvd.dvd.trans (by decide) h32
  have hno : chunk_size + 32 ≤ U64 := by
    obtain ⟨k, rfl⟩ := h32
    unfold U64 at hsz ⊢
    omega
  have hf16 : chunk_size / 16 < fuel := by omega
  have hf32 : chunk_size / 32 < fuel := by omega
  refine ⟨write_loop_fills 8 memory chunk_size fuel mem (by decide) h8 (by omega) hfuel,
    write_loop_fills 16 memory chunk_size fuel mem (by decide) h16 (by omega) hf16,
    write_loop_fills 32 memory chunk_size fuel mem (by decide) h32 hno hf32, ?_, ?_, ?_⟩
  · intro off hoff
    unfold pattern_fill
    rw [if_pos (by omega)]
  · intro off hoff
    unfold pattern_fill
    rw [if_neg (by omega)]
  · intro a ha
    unfold pattern_fill
    rw [if_neg (by omega)]

/-- Witness of C11 at a chunk of 64 bytes at address `100` of a zeroed memory. -/
theorem C11_write_units_same_contents_witness :
    write_memory_chunk_scalar 9 100 64 (fun _ => 0) = some (pattern_fill 100 64 (fun _ => 0)) ∧
    write_memory_chunk_sse 9 100 64 (fun _ => 0) = some (pattern_fill 100 64 (fun _ => 0)) ∧
    write_memory_chunk_avx 9 100 64 (fun _ => 0) = some (pattern_fill 100 64 (fun _ => 0)) ∧
    (∀ off, off < 64 → pattern_fill 100 64 (fun _ => 0) (100 + off) = 0x01) ∧
    (∀ off, 64 ≤ off →
      pattern_fill 100 64 (fun _ => 0) (100 + off) = (fun _ => 0) (100 + off)) ∧
    (∀ a, a < 100 → pattern_fill 100 64 (fun _ => 0) a = (fun _ => 0) a) :=
  C11_write_units_same_contents 100 64 9 (fun _ => 0) (by decide)
    (by unfold U64; norm_num) (by decide)

/-- C12: for a region of `S` bytes, a thread count `T ≥ 1` and a positive span, the
byte count in the numerator of the bandwidth returned by `measure_write_bandwidth`
and `measure_read_bandwidth` is `S` (bandwidth × seconds × 2^30 = `S`), and the
bandwidth is the same for every other thread count. The lengths handed to the
workers total `T * floor(S/T)`; `S` equals that total exactly when `T` divides `S`,
and in general exceeds it by `S mod T`; the bytes from `T * floor(S/T)` on lie in
no worker's share. -/
theorem C12_numerator_counts_whole_region (S T : Nat) (hS : S < U64) (hT : 1 ≤ T)
    (hTint : T < 2 ^ 31) (start end_ : Int) (hn : 0 < end_ - start) :
    ∃ r, measure_write_bandwidth S T start end_ = some r ∧
      measure_read_bandwidth S T start end_ = some r ∧
      r.bandwidth * (((end_ - start : Int) : ℚ) * (1 / 1000000000)) * (1024 * 1024 * 1024)
        = (S : ℚ) ∧
      (∀ T2 : Nat, 1 ≤ T2 → T2 < 2 ^ 31 →
        ∃ r2, measure_write_bandwidth S T2 start end_ = some r2 ∧
          measure_read_bandwidth S T2 start end_ = some r2 ∧ r2.bandwidth = r.bandwidth) ∧
      (r.shares.map Share.length).sum = T * (S / T) ∧
      S = (r.shares.map Share.length).sum + S % T ∧
      (S = (r.shares.map Share.length).sum ↔ T ∣ S) ∧
      (¬ T ∣ S → (r.shares.map Share.length).sum < S) ∧
      (∀ x, T * (S / T) ≤ x → x < S → ∀ sh ∈ r.shares, ¬ sh.contains x) := by
  have hq : (((end_ - start : Int) : ℚ)) ≠ 0 := by
    have : (0 : ℚ) < ((end_ - start : Int) : ℚ) := by exact_mod_cast hn
    exact ne_of_gt this
  have hdm : T * (S / T) + S % T = S := Nat.div_add_mod S T
  refine ⟨_, measure_write_bandwidth_eq S T hS hT hTint start end_,
    measure_read_bandwidth_eq S T hS hT hTint start end_, ?_, ?_, even_shares_sum S T,
    ?_, ?_, ?_, ?_⟩
  · simp only []
    generalize ((end_ - start : Int) : ℚ) = n at hq
    field_simp
    ring
  · intro T2 h1 h2
    exact ⟨_, measure_write_bandwidth_eq S T2 hS h1 h2 start end_,
      measure_read_bandwidth_eq S T2 hS h1 h2 start end_, rfl⟩
  · simp only [even_shares_sum]
    omega
  · simp only [even_shares_sum]
    rw [Nat.dvd_iff_mod_eq_zero]
    omega
  · intro hnd
    simp only [even_shares_sum]
    have : S % T ≠ 0 := fun h => hnd (Nat.dvd_of_mod_eq_zero h)
    omega
  · intro x hx _ sh hsh
    exact tail_in_no_share S T x hx sh hsh

/-- Witness of C12 at `S = 10`, `T = 3`, a span of 1000 ns: nine bytes are assigned,
ten are counted. -/
theorem C12_numerator_counts_whole_region_witness :
    ∃ r, measure_write_bandwidth 10 (3 : Nat) 0 1000 = some r ∧
      measure_read_bandwidth 10 (3 : Nat) 0 1000 = some r ∧
      r.bandwidth * (((1000 - 0 : Int) : ℚ) * (1 / 1000000000)) * (1024 * 1024 * 1024)
        = ((10 : Nat) : ℚ) ∧
      (∀ T2 : Nat, 1 ≤ T2 → T2 < 2 ^ 31 →
        ∃ r2, measure_write_bandwidth 10 T2 0 1000 = some r2 ∧
          measure_read_bandwidth 10 T2 0 1000 = some r2 ∧ r2.bandwidth = r.bandwidth) ∧
      (r.shares.map Share.length).sum = 3 * (10 / 3) ∧
      10 = (r.shares.map Share.length).sum + 10 % 3 ∧
      (10 = (r.shares.map Share.length).sum ↔ 3 ∣ 10) ∧
      (¬ 3 ∣ 10 → (r.shares.map Share.length).sum < 10) ∧
      (∀ x, 3 * (10 / 3) ≤ x → x < 10 → ∀ sh ∈ r.shares, ¬ sh.contains x) :=
  C12_numerator_counts_whole_region 10 3 (by unfold U64; norm_num) (by decide)
    (by norm_num) 0 1000 (by decide)

end BenchySuite
